import Mathlib

/-!
Verification of the versioned data-access layer and field-codec subsystem
(repository `broiling`): a shallow embedding of the TypeScript source in Lean 4,
together with proofs and refutations of the specification's claims.

The embedding covers:
* `NumberField.encodeSortable` / `decodeSortable` (fields module): the
  order-preserving string encoding of IEEE-754 doubles, modelled on the exact
  64-bit patterns;
* `makeComparison` / `escapeRef` (postgres module): SQL predicate compilation;
* the relational (`postgres.ts`) and attribute-store (`simpledb.ts`) backends'
  CRUD/list operations over explicit store states;
* the field codec combinators (`NullableField`, `ListField`, `IntegerField`,
  `BooleanField`, `NumberField`) on a model of JavaScript runtime values.

JavaScript strings are modelled as `List Char` (all strings involved are
sequences of Unicode scalar values; comparison is code-unit-wise, which on
these strings agrees with `Char` order).
-/

namespace Broiling

/-! ## JavaScript string order: plain byte-wise (code-unit) comparison -/

/-- JS `s1 < s2` on strings: lexicographic comparison by code unit. -/
def strLtB : List Char → List Char → Bool
  | [], [] => false
  | [], _ :: _ => true
  | _ :: _, [] => false
  | a :: as, b :: bs => if a < b then true else if a = b then strLtB as bs else false

theorem strLtB_cons_self (c : Char) (l1 l2 : List Char) :
    strLtB (c :: l1) (c :: l2) = strLtB l1 l2 := by
  simp [strLtB]

theorem strLtB_cons_lt {a b : Char} (h : a < b) (l1 l2 : List Char) :
    strLtB (a :: l1) (b :: l2) = true := by
  simp [strLtB, h]

/-! ## Hexadecimal digit strings

`hexDigit` is the digit alphabet of JS `Number.prototype.toString(16)`
(lowercase).  `digitsBE k n` is the fixed-width, big-endian, `k`-digit base-16
rendering of `n`; `padStart(w.toString(16), 4, '0')` on a 16-bit word `w` is
exactly `digitsBE 4 w` (`strings.padStart` is the usual left-pad helper:
modelled from the spec's "fixed-width hexadecimal chunks"). -/

def hexDigit (n : Nat) : Char :=
  if n < 10 then Char.ofNat (48 + n) else Char.ofNat (87 + n)

def digitsBE : Nat → Nat → List Char
  | 0, _ => []
  | k + 1, n => hexDigit (n / 16 ^ k % 16) :: digitsBE k n

theorem hexDigit_lt : ∀ d1 < 16, ∀ d2 < 16, d1 < d2 → hexDigit d1 < hexDigit d2 := by
  decide

theorem hexDigit_inj : ∀ d1 < 16, ∀ d2 < 16, hexDigit d1 = hexDigit d2 → d1 = d2 := by
  decide

theorem digitsBE_mod (k n : Nat) : digitsBE k (n % 16 ^ k) = digitsBE k n := by
  induction k generalizing n with
  | zero => rfl
  | succ k ih =>
    have h1 : n % 16 ^ (k + 1) / 16 ^ k % 16 = n / 16 ^ k % 16 := by
      rw [pow_succ, Nat.mod_mul_right_div_self]
      omega
    have h2 : n % 16 ^ (k + 1) % 16 ^ k = n % 16 ^ k := by
      exact Nat.mod_mod_of_dvd n (pow_dvd_pow 16 (Nat.le_succ k))
    calc digitsBE (k + 1) (n % 16 ^ (k + 1))
        = hexDigit (n % 16 ^ (k + 1) / 16 ^ k % 16) :: digitsBE k (n % 16 ^ (k + 1)) := rfl
      _ = hexDigit (n / 16 ^ k % 16) :: digitsBE k (n % 16 ^ (k + 1)) := by rw [h1]
      _ = hexDigit (n / 16 ^ k % 16) :: digitsBE k (n % 16 ^ (k + 1) % 16 ^ k) := by rw [ih]
      _ = hexDigit (n / 16 ^ k % 16) :: digitsBE k (n % 16 ^ k) := by rw [h2]
      _ = hexDigit (n / 16 ^ k % 16) :: digitsBE k n := by rw [ih]

theorem digitsBE_append (j k n : Nat) :
    digitsBE (j + k) n = digitsBE j (n / 16 ^ k) ++ digitsBE k n := by
  induction j with
  | zero => simp [digitsBE]
  | succ j ih =>
    have hs : j + 1 + k = (j + k) + 1 := by omega
    rw [hs]
    show hexDigit (n / 16 ^ (j + k) % 16) :: digitsBE (j + k) n = _
    have h : n / 16 ^ (j + k) = n / 16 ^ k / 16 ^ j := by
      rw [Nat.div_div_eq_div_mul, ← pow_add, Nat.add_comm k j]
    rw [ih, h]
    rfl

theorem digitsBE_length (k n : Nat) : (digitsBE k n).length = k := by
  induction k generalizing n with
  | zero => rfl
  | succ k ih => simp [digitsBE, ih]

/-- Fixed-width hex strings compare like the numbers they encode. -/
theorem strLtB_digitsBE {k n1 n2 : Nat} (h : n1 < n2) (hb : n2 < 16 ^ k) :
    strLtB (digitsBE k n1) (digitsBE k n2) = true := by
  induction k generalizing n1 n2 with
  | zero => simp at hb; omega
  | succ k ih =>
    have hq1 : n1 / 16 ^ k < 16 := by
      have : n1 < 16 ^ (k + 1) := lt_trans h hb
      rw [pow_succ] at this
      exact Nat.div_lt_of_lt_mul (by omega)
    have hq2 : n2 / 16 ^ k < 16 := by
      rw [pow_succ] at hb
      exact Nat.div_lt_of_lt_mul (by omega)
    have hqle : n1 / 16 ^ k ≤ n2 / 16 ^ k := Nat.div_le_div_right (le_of_lt h)
    show strLtB (hexDigit (n1 / 16 ^ k % 16) :: digitsBE k n1)
        (hexDigit (n2 / 16 ^ k % 16) :: digitsBE k n2) = true
    rcases lt_or_eq_of_le hqle with hlt | heq
    · have hd : hexDigit (n1 / 16 ^ k % 16) < hexDigit (n2 / 16 ^ k % 16) := by
        rw [Nat.mod_eq_of_lt hq1, Nat.mod_eq_of_lt hq2]
        exact hexDigit_lt _ hq1 _ hq2 hlt
      exact strLtB_cons_lt hd _ _
    · have e1 := Nat.div_add_mod n1 (16 ^ k)
      have e2 := Nat.div_add_mod n2 (16 ^ k)
      rw [heq] at e1
      have hm1 : n1 % 16 ^ k < 16 ^ k := Nat.mod_lt _ (Nat.pos_pow_of_pos k (by norm_num))
      have hm2 : n2 % 16 ^ k < 16 ^ k := Nat.mod_lt _ (Nat.pos_pow_of_pos k (by norm_num))
      have hmlt : n1 % 16 ^ k < n2 % 16 ^ k := by omega
      rw [heq, strLtB_cons_self, ← digitsBE_mod k n1, ← digitsBE_mod k n2]
      exact ih hmlt hm2

/-! ## Bitwise complement of 16-bit chunks

The encoder complements each 16-bit word of a negative number with
`0xffff ^ byte`; on words below `2 ^ 16` this is subtraction from `0xffff`. -/

theorem xor_div_two (a b : Nat) : (a ^^^ b) / 2 = a / 2 ^^^ b / 2 := by
  apply Nat.eq_of_testBit_eq
  intro i
  rw [← Nat.testBit_add_one, Nat.testBit_xor, Nat.testBit_xor,
    ← Nat.testBit_add_one, ← Nat.testBit_add_one]

theorem xor_mod_two (a b : Nat) : (a ^^^ b) % 2 = (a % 2 + b % 2) % 2 := by
  have h := Nat.testBit_xor a b 0
  rcases Nat.mod_two_eq_zero_or_one a with ha | ha <;>
    rcases Nat.mod_two_eq_zero_or_one b with hb | hb <;>
    rcases Nat.mod_two_eq_zero_or_one (a ^^^ b) with hx | hx <;>
    simp [Nat.testBit_zero, ha, hb, hx] at h ⊢ <;> omega

theorem xor_all_ones {n w : Nat} (h : w < 2 ^ n) : (2 ^ n - 1) ^^^ w = 2 ^ n - 1 - w := by
  induction n generalizing w with
  | zero =>
    interval_cases w
    rfl
  | succ n ih =>
    have hpow : 2 ^ (n + 1) = 2 * 2 ^ n := by ring
    have hm : (2 ^ (n + 1) - 1) / 2 = 2 ^ n - 1 := by
      have : (1 : Nat) ≤ 2 ^ n := Nat.one_le_two_pow
      omega
    have hmod : (2 ^ (n + 1) - 1) % 2 = 1 := by
      have : (1 : Nat) ≤ 2 ^ n := Nat.one_le_two_pow
      omega
    have hw2 : w / 2 < 2 ^ n := by omega
    have hdiv := xor_div_two (2 ^ (n + 1) - 1) w
    rw [hm, ih hw2] at hdiv
    have hparity := xor_mod_two (2 ^ (n + 1) - 1) w
    rw [hmod] at hparity
    have hx := Nat.div_add_mod ((2 ^ (n + 1) - 1) ^^^ w) 2
    have hw := Nat.div_add_mod w 2
    have h1 : (1 : Nat) ≤ 2 ^ n := Nat.one_le_two_pow
    omega

theorem xor_all_ones_lt {n w : Nat} (h : w < 2 ^ n) : (2 ^ n - 1) ^^^ w < 2 ^ n := by
  rw [xor_all_ones h]
  have : (1 : Nat) ≤ 2 ^ n := Nat.one_le_two_pow
  omega

theorem xor_xor_self (m w : Nat) : m ^^^ (m ^^^ w) = w := by
  rw [← Nat.xor_assoc, Nat.xor_self, Nat.zero_xor]

/-! ## NumberField sortable encoding (fields module)

A finite IEEE-754 double is modelled by its 64-bit pattern `b < 2 ^ 64`
(sign bit, 11-bit exponent, 52-bit mantissa), with `toVal b : ℚ` its exact
numeric value.  `Math.abs` clears the sign bit; `value < 0` is `toVal b < 0`
(false for negative zero, exactly as in JS).  The `Uint16Array` view of the
`Float64Array` buffer yields the four little-endian 16-bit words of the
pattern (the platform assumption made by the source). -/

namespace NumberField

/-- Bit pattern of `Math.abs(value)`: the sign bit cleared. -/
def absBits (b : Nat) : Nat := b % 2 ^ 63

/-- The `i`-th little-endian 16-bit word of a bit pattern. -/
def word (a i : Nat) : Nat := a / 2 ^ (16 * i) % 2 ^ 16

/-- Numerator of the magnitude of the double with (sign-cleared) bits `a`,
scaled by `2 ^ 1074`: subnormals (`exponent = 0`) are `mantissa * 2 ^ -1074`,
normals are `(2 ^ 52 + mantissa) * 2 ^ (exponent - 1075)`. -/
def scaledMag (a : Nat) : Nat :=
  if a / 2 ^ 52 = 0 then a % 2 ^ 52 else (2 ^ 52 + a % 2 ^ 52) * 2 ^ (a / 2 ^ 52 - 1)

/-- Magnitude of the double with (sign-cleared) bits `a`, as a rational. -/
def magQ (a : Nat) : ℚ := (scaledMag a : ℚ) / 2 ^ 1074

/-- Exact numeric value of the double with bit pattern `b`. -/
def toVal (b : Nat) : ℚ :=
  if b / 2 ^ 63 % 2 = 1 then -magQ (absBits b) else magQ (absBits b)

/-- `b` is the bit pattern of a finite double (not `NaN` / `Infinity`);
these are exactly the values accepted by `NumberField.validate` (with no
`min` / `max` options), i.e. those with `Number.isFinite(value)`. -/
def isFiniteBits (b : Nat) : Prop := b < 2 ^ 64 ∧ absBits b / 2 ^ 52 ≠ 2047

/-- `padStart((x).toString(16), 4, '0')` on a 16-bit word: exactly four
lowercase hex digits, big-endian. -/
def hex4 (w : Nat) : List Char := digitsBE 4 w

/-- `NumberField.encodeSortable`: split the `Float64` pattern of `Math.abs(value)`
into its four little-endian 16-bit words, hex-format each (complemented via
`0xffff ^ byte` when `value < 0`), reverse to big-endian, and prefix the sign
marker (`'-'` negative, `'0'` otherwise). -/
def encodeSortable (b : Nat) : List Char :=
  let neg := decide (toVal b < 0)
  let a := absBits b
  let bytes := [word a 0, word a 1, word a 2, word a 3]
  let chunks := (bytes.map (fun w => hex4 (if neg then 0xffff ^^^ w else w))).reverse
  (if neg then '-' else '0') :: chunks.flatten

/-! ### Monotonicity of the magnitude in the bit pattern -/

theorem scaledMag_lt {a1 a2 : Nat} (h : a1 < a2) : scaledMag a1 < scaledMag a2 := by
  have he : a1 / 2 ^ 52 ≤ a2 / 2 ^ 52 := Nat.div_le_div_right (le_of_lt h)
  unfold scaledMag
  split_ifs with h1 h2 h2
  · -- both subnormal
    omega
  · -- subnormal < normal
    have hm : a1 % 2 ^ 52 < 2 ^ 52 := Nat.mod_lt _ (by norm_num)
    have hp : 0 < 2 ^ (a2 / 2 ^ 52 - 1) := Nat.pos_pow_of_pos _ (by norm_num)
    have hg : 2 ^ 52 * 1 ≤ (2 ^ 52 + a2 % 2 ^ 52) * 2 ^ (a2 / 2 ^ 52 - 1) :=
      Nat.mul_le_mul (by omega) hp
    omega
  · -- a2 subnormal while a1 normal is impossible
    omega
  · -- both normal
    rcases Nat.lt_or_ge (a1 / 2 ^ 52) (a2 / 2 ^ 52) with hlt | hge
    · have hb1 : 2 ^ 52 + a1 % 2 ^ 52 < 2 ^ 53 := by
        have := Nat.mod_lt a1 (y := 2 ^ 52) (by norm_num)
        omega
      have hp1 : (0 : Nat) < 2 ^ (a1 / 2 ^ 52 - 1) := Nat.pos_pow_of_pos _ (by norm_num)
      have s1 : (2 ^ 52 + a1 % 2 ^ 52) * 2 ^ (a1 / 2 ^ 52 - 1)
          < 2 ^ 53 * 2 ^ (a1 / 2 ^ 52 - 1) := (Nat.mul_lt_mul_right hp1).mpr hb1
      have s2 : (2 : Nat) ^ 53 * 2 ^ (a1 / 2 ^ 52 - 1) = 2 ^ 52 * 2 ^ (a1 / 2 ^ 52 - 1 + 1) := by
        ring
      have s3 : (2 : Nat) ^ 52 * 2 ^ (a1 / 2 ^ 52 - 1 + 1) ≤ 2 ^ 52 * 2 ^ (a2 / 2 ^ 52 - 1) :=
        Nat.mul_le_mul_left _ (Nat.pow_le_pow_right (by norm_num) (by omega))
      have s4 : (2 : Nat) ^ 52 * 2 ^ (a2 / 2 ^ 52 - 1)
          ≤ (2 ^ 52 + a2 % 2 ^ 52) * 2 ^ (a2 / 2 ^ 52 - 1) :=
        Nat.mul_le_mul_right _ (by omega)
      omega
    · have heq : a1 / 2 ^ 52 = a2 / 2 ^ 52 := le_antisymm he hge
      have e1 := Nat.div_add_mod a1 (2 ^ 52)
      have e2 := Nat.div_add_mod a2 (2 ^ 52)
      rw [heq] at e1
      rw [heq]
      exact (Nat.mul_lt_mul_right (Nat.pos_pow_of_pos _ (by norm_num))).mpr (by omega)

theorem scaledMag_le {a1 a2 : Nat} (h : a1 ≤ a2) : scaledMag a1 ≤ scaledMag a2 := by
  rcases lt_or_eq_of_le h with h | h
  · exact le_of_lt (scaledMag_lt h)
  · rw [h]

theorem scaledMag_eq_zero {a : Nat} : scaledMag a = 0 ↔ a = 0 := by
  constructor
  · intro h
    by_contra hne
    have h0 : scaledMag 0 < scaledMag a := scaledMag_lt (Nat.pos_of_ne_zero hne)
    have hz : scaledMag 0 = 0 := by simp [scaledMag]
    omega
  · intro h
    simp [h, scaledMag]

theorem magQ_nonneg (a : Nat) : 0 ≤ magQ a := by
  unfold magQ
  positivity

theorem magQ_lt_magQ {a1 a2 : Nat} (h : magQ a1 < magQ a2) : a1 < a2 := by
  by_contra hle
  push_neg at hle
  have hs : scaledMag a2 ≤ scaledMag a1 := scaledMag_le hle
  have : magQ a2 ≤ magQ a1 := by
    unfold magQ
    apply div_le_div_of_nonneg_right ?_ (by norm_num)
    exact_mod_cast hs
  exact absurd h (not_lt.mpr this)

theorem magQ_lt_of_lt {a1 a2 : Nat} (h : a1 < a2) : magQ a1 < magQ a2 := by
  unfold magQ
  apply div_lt_div_of_pos_right ?_ (by norm_num)
  exact_mod_cast scaledMag_lt h

theorem magQ_eq_zero {a : Nat} : magQ a = 0 ↔ a = 0 := by
  unfold magQ
  rw [div_eq_zero_iff]
  norm_num
  exact_mod_cast scaledMag_eq_zero

/-- When `value < 0` is false the value is the magnitude of the cleared bits. -/
theorem toVal_of_nonneg {b : Nat} (h : ¬toVal b < 0) : toVal b = magQ (absBits b) := by
  unfold toVal at h ⊢
  split_ifs at h ⊢ with hs
  · have h0 : magQ (absBits b) = 0 := le_antisymm (by linarith) (magQ_nonneg _)
    rw [h0]
    ring
  · rfl

theorem toVal_of_neg {b : Nat} (h : toVal b < 0) : toVal b = -magQ (absBits b) := by
  unfold toVal at h ⊢
  split_ifs at h ⊢ with hs
  · rfl
  · have := magQ_nonneg (absBits b)
    linarith

/-- A negative value has its sign bit set and a nonzero magnitude. -/
theorem sign_of_neg {b : Nat} (hb : b < 2 ^ 64) (h : toVal b < 0) :
    2 ^ 63 ≤ b ∧ absBits b ≠ 0 := by
  unfold toVal at h
  split_ifs at h with hs
  · refine ⟨by omega, fun h0 => ?_⟩
    rw [h0, magQ_eq_zero.mpr rfl] at h
    simp at h
  · have := magQ_nonneg (absBits b)
    linarith

theorem sign_of_nonneg {b : Nat} (hb : b < 2 ^ 64) (h : ¬toVal b < 0) :
    b < 2 ^ 63 ∨ b = 2 ^ 63 := by
  by_contra hc
  push_neg at hc
  have hs : b / 2 ^ 63 % 2 = 1 := by omega
  have ha : absBits b ≠ 0 := by
    unfold absBits
    omega
  apply h
  unfold toVal
  rw [if_pos hs]
  simp only [neg_neg, Left.neg_neg_iff]
  rcases lt_or_eq_of_le (magQ_nonneg (absBits b)) with hq | hq
  · exact hq
  · exact absurd (magQ_eq_zero.mp hq.symm) ha

/-! ### Shape of the encoded string -/

theorem word_lt (a i : Nat) : word a i < 2 ^ 16 := Nat.mod_lt _ (by norm_num)

theorem digitsBE16_words (a : Nat) :
    digitsBE 16 a = hex4 (word a 3) ++ hex4 (word a 2) ++ hex4 (word a 1) ++ hex4 (word a 0) := by
  have h1 := digitsBE_append 4 12 a
  have h2 := digitsBE_append 4 8 a
  have h3 := digitsBE_append 4 4 a
  norm_num at h1 h2 h3
  have w3 : hex4 (word a 3) = digitsBE 4 (a / 16 ^ 12) := by
    rw [hex4, show word a 3 = a / 16 ^ 12 % 16 ^ 4 by norm_num [word], digitsBE_mod]
  have w2 : hex4 (word a 2) = digitsBE 4 (a / 16 ^ 8) := by
    rw [hex4, show word a 2 = a / 16 ^ 8 % 16 ^ 4 by norm_num [word], digitsBE_mod]
  have w1 : hex4 (word a 1) = digitsBE 4 (a / 16 ^ 4) := by
    rw [hex4, show word a 1 = a / 16 ^ 4 % 16 ^ 4 by norm_num [word], digitsBE_mod]
  have w0 : hex4 (word a 0) = digitsBE 4 a := by
    rw [hex4, show word a 0 = a % 16 ^ 4 by norm_num [word], digitsBE_mod]
  rw [h1, h2, h3, w3, w2, w1, w0]
  simp [List.append_assoc]

theorem word_compl {a : Nat} (ha : a < 2 ^ 64) {i : Nat} (hi : i < 4) :
    0xffff ^^^ word a i = word (2 ^ 64 - 1 - a) i := by
  rw [show (0xffff : Nat) = 2 ^ 16 - 1 from rfl, xor_all_ones (word_lt a i)]
  unfold word
  interval_cases i <;> norm_num <;> omega

theorem encodeSortable_nonneg {b : Nat} (h : ¬toVal b < 0) :
    encodeSortable b = '0' :: digitsBE 16 (absBits b) := by
  rw [digitsBE16_words]
  simp [encodeSortable, h, hex4]

theorem encodeSortable_neg {b : Nat} (hb : b < 2 ^ 64) (h : toVal b < 0) :
    encodeSortable b = '-' :: digitsBE 16 (2 ^ 64 - 1 - absBits b) := by
  have ha : absBits b < 2 ^ 64 := by
    have : absBits b < 2 ^ 63 := Nat.mod_lt _ (by norm_num)
    omega
  rw [digitsBE16_words,
    ← word_compl ha (show (3 : Nat) < 4 by norm_num),
    ← word_compl ha (show (2 : Nat) < 4 by norm_num),
    ← word_compl ha (show (1 : Nat) < 4 by norm_num),
    ← word_compl ha (show (0 : Nat) < 4 by norm_num)]
  simp [encodeSortable, h, hex4]

/-- Claim C1: for finite doubles passing `NumberField.validate`, the sortable
encoding is strictly monotone under plain byte-wise string comparison,
including across the zero boundary. -/
theorem encodeSortable_strictMono (b1 b2 : Nat)
    (h1 : isFiniteBits b1) (h2 : isFiniteBits b2) (hlt : toVal b1 < toVal b2) :
    strLtB (encodeSortable b1) (encodeSortable b2) = true := by
  have hpow : (16 : Nat) ^ 16 = 2 ^ 64 := by norm_num
  have ha1 : absBits b1 < 2 ^ 63 := Nat.mod_lt _ (by norm_num)
  have ha2 : absBits b2 < 2 ^ 63 := Nat.mod_lt _ (by norm_num)
  by_cases hn1 : toVal b1 < 0 <;> by_cases hn2 : toVal b2 < 0
  · -- both negative: complemented payloads compare in reverse magnitude order
    rw [encodeSortable_neg h1.1 hn1, encodeSortable_neg h2.1 hn2, strLtB_cons_self]
    have hmag : magQ (absBits b2) < magQ (absBits b1) := by
      have hv1 := toVal_of_neg hn1
      have hv2 := toVal_of_neg hn2
      rw [hv1, hv2] at hlt
      linarith
    have habs : absBits b2 < absBits b1 := magQ_lt_magQ hmag
    exact strLtB_digitsBE (by omega) (by omega)
  · -- negative before non-negative: '-' sorts before '0'
    rw [encodeSortable_neg h1.1 hn1, encodeSortable_nonneg hn2]
    exact strLtB_cons_lt (by decide) _ _
  · -- a non-negative value is never below a negative one
    exfalso
    push_neg at hn1
    linarith
  · -- both non-negative: payloads compare in magnitude order
    rw [encodeSortable_nonneg hn1, encodeSortable_nonneg hn2, strLtB_cons_self]
    have hmag : magQ (absBits b1) < magQ (absBits b2) := by
      have hv1 := toVal_of_nonneg hn1
      have hv2 := toVal_of_nonneg hn2
      rw [hv1, hv2] at hlt
      exact hlt
    exact strLtB_digitsBE (magQ_lt_magQ hmag) (by omega)

/-! ### Decoding -/

/-- Value of one hex digit, as accepted by JS `parseInt(_, 16)`. -/
def hexVal? (c : Char) : Option Nat :=
  if '0' ≤ c ∧ c ≤ '9' then some (c.toNat - 48)
  else if 'a' ≤ c ∧ c ≤ 'f' then some (c.toNat - 87)
  else if 'A' ≤ c ∧ c ≤ 'F' then some (c.toNat - 55)
  else none

/-- Accumulate the longest hex-digit run, as `parseInt(_, 16)` does. -/
def hexPrefixVal : List Char → Nat → Nat
  | [], acc => acc
  | c :: cs, acc =>
    match hexVal? c with
    | some d => hexPrefixVal cs (acc * 16 + d)
    | none => acc

/-- JS `parseInt(s, 16)`: `NaN` (`none`) unless the string starts with a hex
digit, otherwise the value of the longest hex prefix. -/
def parseIntHex : List Char → Option Nat
  | [] => none
  | c :: cs =>
    match hexVal? c with
    | some d => some (hexPrefixVal cs d)
    | none => none

/-- The `slice(i, i + 4)` loop of `decodeSortable`: chunks of four characters,
with a shorter final chunk when the length is not a multiple of four. -/
def chunks4 : List Char → List (List Char)
  | [] => []
  | c1 :: c2 :: c3 :: c4 :: rest => [c1, c2, c3, c4] :: chunks4 rest
  | cs => [cs]

/-- All-or-nothing collection of parse results (`Number.isNaN` check per chunk). -/
def optList : List (Option Nat) → Option (List Nat)
  | [] => some []
  | none :: _ => none
  | some g :: rest => (optList rest).map (g :: ·)

/-- `NumberField.decodeSortable`: strip the sign marker, `parseInt(_, 16)` each
four-character chunk (`ValidationError` on `NaN`), un-complement the chunks when
the sign is `'-'` (`Uint16Array.from` truncates to 16 bits), reassemble the
64-bit pattern from the little-endian words read by the `Float64Array` view
(which requires a byte count that is a multiple of 8 and at least one element),
re-apply the sign (`-float` flips the sign bit) and validate finiteness.
`none` collapses the failure outcomes (`ValidationError`, `RangeError`). -/
def decodeSortable (s : List Char) : Option Nat :=
  match s with
  | [] => none
  | sign :: byteStr =>
    match optList ((chunks4 byteStr).map parseIntHex) with
    | none => none
    | some gs =>
      if gs.length % 4 ≠ 0 then none
      else
        match (gs.map fun g => (if sign = '-' then 0xffff ^^^ g else g) % 2 ^ 16).reverse with
        | w0 :: w1 :: w2 :: w3 :: _ =>
          let a := w0 + 2 ^ 16 * w1 + 2 ^ 32 * w2 + 2 ^ 48 * w3
          let bits := if sign = '-' then (if a < 2 ^ 63 then a + 2 ^ 63 else a - 2 ^ 63) else a
          if absBits bits / 2 ^ 52 = 2047 then none else some bits
        | _ => none

theorem hexVal_hexDigit : ∀ d < 16, hexVal? (hexDigit d) = some d := by
  decide

theorem hex4_cons (w : Nat) :
    hex4 w = [hexDigit (w / 4096 % 16), hexDigit (w / 256 % 16),
      hexDigit (w / 16 % 16), hexDigit (w % 16)] := by
  show digitsBE 4 w = _
  norm_num [digitsBE]

theorem parse_hex4 (w : Nat) : parseIntHex (hex4 w) = some (w % 2 ^ 16) := by
  have d3 : w / 4096 % 16 < 16 := Nat.mod_lt _ (by norm_num)
  have d2 : w / 256 % 16 < 16 := Nat.mod_lt _ (by norm_num)
  have d1 : w / 16 % 16 < 16 := Nat.mod_lt _ (by norm_num)
  have d0 : w % 16 < 16 := Nat.mod_lt _ (by norm_num)
  rw [hex4_cons]
  simp only [parseIntHex, hexPrefixVal, hexVal_hexDigit _ d3, hexVal_hexDigit _ d2,
    hexVal_hexDigit _ d1, hexVal_hexDigit _ d0]
  congr 1
  omega

theorem chunks4_hex4 (w3 w2 w1 w0 : Nat) :
    chunks4 (hex4 w3 ++ hex4 w2 ++ hex4 w1 ++ hex4 w0) =
      [hex4 w3, hex4 w2, hex4 w1, hex4 w0] := by
  rw [hex4_cons w3, hex4_cons w2, hex4_cons w1, hex4_cons w0]
  rfl

theorem words_recompose {a : Nat} (ha : a < 2 ^ 64) :
    word a 0 + 2 ^ 16 * word a 1 + 2 ^ 32 * word a 2 + 2 ^ 48 * word a 3 = a := by
  have h0 : word a 0 = a % 65536 := by norm_num [word]
  have h1 : word a 1 = a / 65536 % 65536 := by norm_num [word]
  have h2 : word a 2 = a / 4294967296 % 65536 := by norm_num [word]
  have h3 : word a 3 = a / 281474976710656 % 65536 := by norm_num [word]
  rw [h0, h1, h2, h3]
  omega

theorem toVal_zero_bits : toVal (2 ^ 63) = toVal 0 := by
  have hz : absBits (2 ^ 63) = 0 := by norm_num [absBits]
  have hz0 : absBits 0 = 0 := by norm_num [absBits]
  have hm : magQ 0 = 0 := by
    rw [magQ_eq_zero]
  unfold toVal
  rw [hz, hz0, hm]
  norm_num

/-- Claim C2: decoding the sortable encoding of any finite double recovers it:
bit-for-bit for every pattern except negative zero, which decodes to positive
zero — numerically equal (`-0 == 0` in JS). -/
theorem decodeSortable_encodeSortable (b : Nat) (h : isFiniteBits b) :
    decodeSortable (encodeSortable b) = some (if b = 2 ^ 63 then 0 else b) ∧
      toVal (if b = 2 ^ 63 then 0 else b) = toVal b := by
  have hb := h.1
  have ha : absBits b < 9223372036854775808 := Nat.mod_lt _ (by norm_num)
  have ha64 : absBits b < 2 ^ 64 := by omega
  have hw0 := word_lt (absBits b) 0
  have hw1 := word_lt (absBits b) 1
  have hw2 := word_lt (absBits b) 2
  have hw3 := word_lt (absBits b) 3
  have hrec := words_recompose ha64
  have hfin : ¬absBits b / 4503599627370496 = 2047 := by
    have hh := h.2
    norm_num at hh
    exact hh
  norm_num at hrec hw0 hw1 hw2 hw3
  by_cases hn : toVal b < 0
  · -- negative: chunks complemented, sign re-applied by setting the sign bit
    obtain ⟨hs, hnz⟩ := sign_of_neg hb hn
    have hx3 : (65535 ^^^ word (absBits b) 3) % 65536 = 65535 ^^^ word (absBits b) 3 :=
      Nat.mod_eq_of_lt (by
        have hh := xor_all_ones_lt (n := 16) (w := word (absBits b) 3) (by norm_num [word]; omega)
        norm_num at hh
        exact hh)
    have hx2 : (65535 ^^^ word (absBits b) 2) % 65536 = 65535 ^^^ word (absBits b) 2 :=
      Nat.mod_eq_of_lt (by
        have hh := xor_all_ones_lt (n := 16) (w := word (absBits b) 2) (by norm_num [word]; omega)
        norm_num at hh
        exact hh)
    have hx1 : (65535 ^^^ word (absBits b) 1) % 65536 = 65535 ^^^ word (absBits b) 1 :=
      Nat.mod_eq_of_lt (by
        have hh := xor_all_ones_lt (n := 16) (w := word (absBits b) 1) (by norm_num [word]; omega)
        norm_num at hh
        exact hh)
    have hx0 : (65535 ^^^ word (absBits b) 0) % 65536 = 65535 ^^^ word (absBits b) 0 :=
      Nat.mod_eq_of_lt (by
        have hh := xor_all_ones_lt (n := 16) (w := word (absBits b) 0) (by norm_num [word]; omega)
        norm_num at hh
        exact hh)
    have habs2 : absBits (absBits b + 9223372036854775808) = absBits b := by
      unfold absBits at *
      omega
    have hbeq : absBits b + 9223372036854775808 = b := by
      unfold absBits at *
      omega
    have hne : ¬b = 9223372036854775808 := by
      unfold absBits at hnz
      omega
    rw [encodeSortable_neg hb hn, digitsBE16_words,
      ← word_compl ha64 (show (3 : Nat) < 4 by norm_num),
      ← word_compl ha64 (show (2 : Nat) < 4 by norm_num),
      ← word_compl ha64 (show (1 : Nat) < 4 by norm_num),
      ← word_compl ha64 (show (0 : Nat) < 4 by norm_num),
      decodeSortable, chunks4_hex4]
    simp [parse_hex4, optList, hx3, hx2, hx1, hx0, xor_xor_self,
      Nat.mod_eq_of_lt hw0, Nat.mod_eq_of_lt hw1, Nat.mod_eq_of_lt hw2, Nat.mod_eq_of_lt hw3,
      hrec, ha, habs2, hbeq, hne, hfin]
  · -- non-negative: chunks pass through, sign marker '0'
    rcases sign_of_nonneg hb hn with hlt | heq
    · have habs : absBits b = b := Nat.mod_eq_of_lt hlt
      have hne : ¬b = 9223372036854775808 := by
        norm_num at hlt
        omega
      rw [habs] at hrec hw0 hw1 hw2 hw3 hfin
      rw [encodeSortable_nonneg hn, digitsBE16_words, decodeSortable, chunks4_hex4, habs]
      simp [parse_hex4, optList, Nat.mod_eq_of_lt hw0, Nat.mod_eq_of_lt hw1,
        Nat.mod_eq_of_lt hw2, Nat.mod_eq_of_lt hw3, hrec, habs, hfin, hne]
    · -- the negative-zero pattern decodes to positive zero
      have habs : absBits b = 0 := by
        unfold absBits
        omega
      subst heq
      rw [encodeSortable_nonneg hn, habs]
      norm_num
      have hz : toVal (2 ^ 63) = toVal 0 := toVal_zero_bits
      norm_num at hz
      exact ⟨by decide, hz.symm⟩

set_option maxRecDepth 8192 in
/-- Witness for C1 at `-0.5` (bits `0xBFE0000000000000`) and `0.5`
(bits `0x3FE0000000000000`): across the zero boundary. -/
theorem encodeSortable_strictMono_witness :
    strLtB (encodeSortable 13827109850662830080) (encodeSortable 4587366580439587840) = true :=
  encodeSortable_strictMono _ _
    ⟨by norm_num, by norm_num [absBits]⟩
    ⟨by norm_num, by norm_num [absBits]⟩
    (by norm_num [toVal, magQ, scaledMag, absBits])

/-- Witness for C2 at `1.0` (bits `0x3FF0000000000000`). -/
theorem decodeSortable_encodeSortable_witness :
    decodeSortable (encodeSortable 4607182418800017408) =
        some (if 4607182418800017408 = 2 ^ 63 then 0 else 4607182418800017408) ∧
      toVal (if (4607182418800017408 : Nat) = 2 ^ 63 then 0 else 4607182418800017408) =
        toVal 4607182418800017408 :=
  decodeSortable_encodeSortable _ ⟨by norm_num, by norm_num [absBits]⟩

end NumberField

/-! ## JavaScript runtime values

One model of the JS values that cross the layer's boundaries: record field
values, SQL parameters, and codec inputs.  Finite doubles are modelled as
rationals (`num`), with `nan` for the non-finite results of failed parses. -/

inductive JsValue where
  | undef
  | null
  | bool (b : Bool)
  | num (q : ℚ)
  | nan
  | str (s : String)
  | arr (xs : List JsValue)

/-- JS `value == null`: true exactly for `null` and `undefined`. -/
def isNullish : JsValue → Bool
  | .undef => true
  | .null => true
  | _ => false

/-- JS decimal rendering of a natural number (`String(n)`, `toFixed(0)`). -/
def natDigits (n : Nat) : List Char :=
  if h : n < 10 then [Char.ofNat (48 + n)]
  else natDigits (n / 10) ++ [Char.ofNat (48 + n % 10)]
decreasing_by exact Nat.div_lt_self (by omega) (by norm_num)

def natToString (n : Nat) : String := ⟨natDigits n⟩

/-! ## SQL predicate compilation (postgres module) -/

namespace Postgres

/-- `escapeRef`: `JSON.stringify` of an identifier — wrap in double quotes,
escaping quotes, backslashes and control characters. -/
def escapeRefChar (c : Char) : List Char :=
  if c = '"' then ['\\', '"']
  else if c = '\\' then ['\\', '\\']
  else if c = Char.ofNat 8 then ['\\', 'b']
  else if c = Char.ofNat 9 then ['\\', 't']
  else if c = Char.ofNat 10 then ['\\', 'n']
  else if c = Char.ofNat 12 then ['\\', 'f']
  else if c = Char.ofNat 13 then ['\\', 'r']
  else if c.toNat < 32 then
    ['\\', 'u', '0', '0', hexDigit (c.toNat / 16), hexDigit (c.toNat % 16)]
  else [c]

def escapeRef (s : String) : String :=
  ⟨'"' :: (s.data.map escapeRefChar).flatten ++ ['"']⟩

/-- `makeComparison(field, value, params)`: compile one filter condition to a
parameterized SQL predicate, pushing every bound value onto `params` (the
mutable array is threaded explicitly). -/
def makeComparison (field : String) (value : JsValue) (params : List JsValue) :
    String × List JsValue :=
  if isNullish value then (escapeRef field ++ " IS NULL", params)
  else
    match value with
    | .arr items =>
      if items.length = 0 then ("FALSE", params)
      else
        let r := items.foldl
          (fun (acc : List String × List JsValue) item =>
            (acc.1 ++ ["$" ++ natToString (acc.2.length + 1)], acc.2 ++ [item]))
          ([], params)
        (escapeRef field ++ " IN (" ++ String.intercalate "," r.1 ++ ")", r.2)
    | _ => (escapeRef field ++ " = $" ++ natToString (params.length + 1), params ++ [value])

theorem makeComparison_fold (items : List JsValue) (acc : List String) (ps : List JsValue) :
    items.foldl
        (fun (acc : List String × List JsValue) item =>
          (acc.1 ++ ["$" ++ natToString (acc.2.length + 1)], acc.2 ++ [item]))
        (acc, ps) =
      (acc ++ (List.range' (ps.length + 1) items.length).map (fun n => "$" ++ natToString n),
       ps ++ items) := by
  induction items generalizing acc ps with
  | nil => simp
  | cons x xs ih =>
    rw [List.foldl_cons, ih]
    simp [List.range'_succ, List.append_assoc]

/-- Claim C9: every filter condition compiles to a parameterized predicate:
`null`-ish values to `"column" IS NULL` (no parameter), a non-empty array to
`"column" IN ($n,...)` with one placeholder per element (all elements pushed
onto the parameter list), an empty array to the constant `FALSE` predicate,
and any other value to `"column" = $n` with the value pushed; filter values
are only ever appended to the parameter list, never spliced into the SQL. -/
theorem makeComparison_spec (field : String) (params : List JsValue) :
    (∀ v, isNullish v = true →
      makeComparison field v params = (escapeRef field ++ " IS NULL", params)) ∧
    makeComparison field (.arr []) params = ("FALSE", params) ∧
    (∀ items, items ≠ [] →
      makeComparison field (.arr items) params =
        (escapeRef field ++ " IN (" ++
          String.intercalate ","
            ((List.range' (params.length + 1) items.length).map (fun n => "$" ++ natToString n))
            ++ ")",
         params ++ items)) ∧
    (∀ v, isNullish v = false → (∀ xs, v ≠ .arr xs) →
      makeComparison field v params =
        (escapeRef field ++ " = $" ++ natToString (params.length + 1), params ++ [v])) := by
  refine ⟨?_, ?_, ?_, ?_⟩
  · intro v hv
    cases v <;> simp [isNullish] at hv <;> rfl
  · rfl
  · intro items hne
    match items with
    | y :: ys =>
      show makeComparison field (.arr (y :: ys)) params = _
      rw [makeComparison, if_neg (by simp [isNullish]), if_neg (by simp)]
      rw [makeComparison_fold]
      simp
  · intro v hv harr
    cases v with
    | arr xs => exact absurd rfl (harr xs)
    | undef => simp [isNullish] at hv
    | null => simp [isNullish] at hv
    | bool b => rfl
    | num q => rfl
    | nan => rfl
    | str s => rfl

/-- Witness for C9: the `IN` case at a concrete field, array and parameter
list. -/
theorem makeComparison_spec_witness :
    ([JsValue.num 1, JsValue.num 2] ≠ ([] : List JsValue)) ∧
      makeComparison "role" (.arr [.num 1, .num 2]) [.str "x"] =
        (escapeRef "role" ++ " IN (" ++
          String.intercalate ","
            ((List.range' ([JsValue.str "x"].length + 1) [JsValue.num 1, JsValue.num 2].length).map
              (fun n => "$" ++ natToString n))
            ++ ")",
         [.str "x"] ++ [.num 1, .num 2]) :=
  ⟨by simp, (makeComparison_spec "role" [.str "x"]).2.2.1 [.num 1, .num 2] (by simp)⟩

end Postgres

/-! ## Structural equality of JS values (`utils/compare.hasProperties`)

Modelled from the spec: `hasProperties(item, identity)` holds when every
identity field equals the item's value for it (the `utils/compare` module is
not under `src/`; the spec calls this "the identity predicate matched"). -/

mutual

def jsEq : JsValue → JsValue → Bool
  | .undef, .undef => true
  | .null, .null => true
  | .bool a, .bool b => a == b
  | .num a, .num b => a == b
  | .nan, .nan => true
  | .str a, .str b => a == b
  | .arr xs, .arr ys => jsEqList xs ys
  | _, _ => false

def jsEqList : List JsValue → List JsValue → Bool
  | [], [] => true
  | x :: xs, y :: ys => jsEq x y && jsEqList xs ys
  | _, _ => false

end

namespace Postgres

/-- A table row: column name / value pairs. -/
abbrev Row := List (String × JsValue)

/-- JS property access: `undefined` for a missing key. -/
def getField (r : Row) (k : String) : JsValue :=
  match r.find? (fun p => p.1 == k) with
  | some p => p.2
  | none => (.undef)

/-- Set a column (SQL `SET k = v`; also JS object spread at one key). -/
def setField (r : Row) (k : String) (v : JsValue) : Row :=
  if r.any (fun p => p.1 == k) then
    r.map (fun p => if p.1 == k then (p.1, v) else p)
  else r ++ [(k, v)]

/-- `hasProperties(item, filters)`: every filter column matches. -/
def hasProperties (item : Row) (filters : Row) : Bool :=
  filters.all (fun p => jsEq (getField item p.1) p.2)

/-- Errors of the storage layer.  `alreadyExists` is the spec's `AlreadyExists`
(§7 error taxonomy); `conditionalCheckFailed` is the raw SimpleDB condition
failure; `custom n` stands for distinct caller-supplied error objects. -/
inductive DbError where
  | notFound
  | preconditionFailed
  | alreadyExists
  | conditionalCheckFailed
  | custom (n : Nat)
deriving DecidableEq

/-- The `pg` driver's parameter conversion: `undefined` is sent as `NULL`. -/
def pgParamValue : JsValue → JsValue
  | .undef => .null
  | v => v

/-- Effect of `updateQuery`'s `SET` list on one row: `keys(fields)` iterates
every schema field, and every non-primary-key column is assigned
`values[key]` — `undefined` (hence `NULL`) when the partial update did not
supply the field. -/
def updateQueryApply (fields identifyBy : List String) (changes : Row) (row : Row) : Row :=
  fields.foldl
    (fun r k => if identifyBy.contains k then r else setField r k (pgParamValue (getField changes k)))
    row

/-- `UPDATE ... WHERE <filters> RETURNING *` over a table, then the model's
`update`: zero returned rows map to `NotFound`. -/
def pgUpdate (table : List Row) (fields identifyBy : List String) (filters changes : Row) :
    Except DbError (List Row × Row) :=
  let updated := table.map
    (fun r => if hasProperties r filters then updateQueryApply fields identifyBy changes r else r)
  let returned := (table.filter (fun r => hasProperties r filters)).map
    (updateQueryApply fields identifyBy changes)
  match returned with
  | [] => .error .notFound
  | r :: _ => .ok (updated, r)

/-- `INSERT ... ON CONFLICT DO NOTHING ... RETURNING *`: no row is returned
when a row with the same primary key already exists. -/
def pgInsert (table : List Row) (identifyBy : List String) (row : Row) :
    List Row × List Row :=
  if table.any (fun r => identifyBy.all (fun k => jsEq (getField r k) (getField row k))) then
    ([], table)
  else ([row], table ++ [row])

/-- `create`: zero returned rows map to `PreconditionFailed` ("Item already
exists."). -/
def pgCreate (table : List Row) (identifyBy : List String) (row : Row) :
    Except DbError (List Row × Row) :=
  match pgInsert table identifyBy row with
  | ([], _) => .error .preconditionFailed
  | (r :: _, t) => .ok (t, r)

/-- `DELETE FROM ... WHERE <filters>`: the remaining table and the affected
row count. -/
def pgDelete (table : List Row) (filters : Row) : List Row × Nat :=
  (table.filter (fun r => !hasProperties r filters),
   (table.filter (fun r => hasProperties r filters)).length)

/-- `destroy`: a zero row count maps to `NotFound`. -/
def pgDestroy (table : List Row) (filters : Row) : Except DbError (List Row) :=
  let r := pgDelete table filters
  if r.2 = 0 then .error .notFound else .ok r.1

/-- `clear`: the same `DELETE`, with no row-count check. -/
def pgClear (table : List Row) (filters : Row) : List Row :=
  (pgDelete table filters).1

/-- `batchRetrieve`: empty input short-circuits; otherwise one `SELECT` with
the OR of all identity predicates, and each input slot gets
`rows.find(...) || null`. -/
def pgBatchRetrieve (table : List Row) (identities : List Row) : List (Option Row) :=
  if identities.isEmpty then []
  else
    let rows := table.filter (fun r => identities.any (fun idq => hasProperties r idq))
    identities.map (fun idq => rows.find? (fun r => hasProperties r idq))

end Postgres

namespace SimpleDb

open Postgres (DbError)

/-- A SimpleDB item: flat string attributes (every stored value is the
`encodeSortable` string form). -/
abbrev Attrs := List (String × String)

/-- A SimpleDB domain: item name → attributes. -/
abbrev Domain := List (String × Attrs)

/-- `getAttributes`: a missing item reads as the empty attribute set. -/
def sdbGet (d : Domain) (n : String) : Attrs :=
  match d.find? (fun p => p.1 == n) with
  | some p => p.2
  | none => []

def lookupAttr (a : Attrs) (k : String) : Option String :=
  (a.find? (fun p => p.1 == k)).map (fun p => p.2)

/-- `hasAttributes(item, required)`: every required attribute is present with
the required value. -/
def hasAttributes (item : Attrs) (required : Attrs) : Bool :=
  required.all (fun p => lookupAttr item p.1 == some p.2)

def setAttr (a : Attrs) (k v : String) : Attrs :=
  if a.any (fun p => p.1 == k) then
    a.map (fun p => if p.1 == k then (p.1, v) else p)
  else a ++ [(k, v)]

/-- `putAttributes` with `Replace: true` per attribute. -/
def putReplace (item : Attrs) (attrs : Attrs) : Attrs :=
  attrs.foldl (fun it p => setAttr it p.1 p.2) item

/-- Store the put result under the item name. -/
def sdbPut (d : Domain) (n : String) (attrs : Attrs) : Domain :=
  if d.any (fun p => p.1 == n) then
    d.map (fun p => if p.1 == n then (p.1, putReplace p.2 attrs) else p)
  else d ++ [(n, putReplace [] attrs)]

def sdbRemove (d : Domain) (n : String) : Domain :=
  d.filter (fun p => !(p.1 == n))

/-- `getItemName` for a single-field primary key: the encoded key value. -/
def itemName (identity : Attrs) (pk : String) : String :=
  (lookupAttr identity pk).getD ""

/-- `retrieve`: read the item, check every identity attribute, otherwise the
caller-supplied not-found error (or `NotFound`). -/
def sdbRetrieve (d : Domain) (pk : String) (identity : Attrs)
    (notFoundError : Option DbError) : Except DbError Attrs :=
  let item := sdbGet d (itemName identity pk)
  if hasAttributes item identity then .ok item
  else .error (notFoundError.getD .notFound)

/-- `create`: conditional put with `Expected {Name: pk, Exists: false}` — the
condition fails iff the stored item already carries the primary-key
attribute; the failure is thrown as `alreadyExistsError || new NotFound(...)`. -/
def sdbCreate (d : Domain) (pk : String) (item : Attrs)
    (alreadyExistsError : Option DbError) : Except DbError Domain :=
  let n := itemName item pk
  if (lookupAttr (sdbGet d n) pk).isSome then .error (alreadyExistsError.getD .notFound)
  else .ok (sdbPut d n item)

/-- `update`: read the item, require every identity attribute, then a
conditional put of only the supplied (encoded) changes with `Replace: true`;
the returned record is the existing item spread with the changes.  The version
condition always holds in this sequential model. -/
def sdbUpdate (d : Domain) (pk : String) (identity changes : Attrs)
    (notFoundError : Option DbError) : Except DbError (Domain × Attrs) :=
  let n := itemName identity pk
  let item := sdbGet d n
  if hasAttributes item identity then
    .ok (sdbPut d n changes, putReplace item changes)
  else .error (notFoundError.getD .notFound)

/-- `deleteAttributes` with an `Expected {Name, Value, Exists: true}`
condition. -/
def sdbDeleteChecked (d : Domain) (n : String) (expName expVal : String) :
    Except DbError Domain :=
  if lookupAttr (sdbGet d n) expName == some expVal then .ok (sdbRemove d n)
  else .error .conditionalCheckFailed

/-- `destroy`: when identity filters beyond the primary key and version are
present, first read and match the item; then a conditional delete expecting
the version attribute (or the primary key when no version is known); condition
failures map to the caller's not-found error (or `NotFound`). -/
def sdbDestroy (d : Domain) (pk versionAttr : String) (identity : Attrs)
    (notFoundError : Option DbError) : Except DbError Domain :=
  match
    (if (identity.filter (fun p => !(p.1 == pk) && !(p.1 == versionAttr))).isEmpty then
      Except.ok (lookupAttr identity versionAttr)
    else if hasAttributes (sdbGet d (itemName identity pk)) identity then
      Except.ok (lookupAttr (sdbGet d (itemName identity pk)) versionAttr)
    else (Except.error (notFoundError.getD .notFound) : Except DbError (Option String)))
  with
  | .error e => .error e
  | .ok encodedVersion =>
    match sdbDeleteChecked d (itemName identity pk)
        (if encodedVersion.isSome then versionAttr else pk)
        (match encodedVersion with
          | some v => v
          | none => (lookupAttr identity pk).getD "") with
    | .ok d2 => .ok d2
    | .error .conditionalCheckFailed => .error (notFoundError.getD .notFound)
    | .error e => .error e

/-- `clear`: `destroy` with a fresh sentinel error object; only that sentinel
is swallowed. -/
def sdbClear (d : Domain) (pk versionAttr : String) (identity : Attrs) :
    Except DbError Domain :=
  match sdbDestroy d pk versionAttr identity (some (.custom 0)) with
  | .error (.custom 0) => .ok d
  | .error e => .error e
  | .ok d2 => .ok d2

/-- `batchRetrieve`: fan out `retrieve` per identity with a shared sentinel
not-found error; the sentinel becomes `null` in that slot, anything else would
re-throw (the model's `retrieve` fails only with the sentinel). -/
def sdbBatchRetrieve (d : Domain) (pk : String) (identities : List Attrs) :
    List (Option Attrs) :=
  identities.map (fun idq =>
    match sdbRetrieve d pk idq (some (.custom 1)) with
    | .ok item => some item
    | .error _ => none)

end SimpleDb

/-! ## Claims C4, C5, C7, C8 -/

open Postgres SimpleDb

/-- Claim C4 (the relational backend contradicts it): `updateQuery` assigns
every non-primary-key column of the schema, so a field not supplied in the
partial update is bound as `undefined` — sent as `NULL` by the driver —
instead of being left untouched.  Updating `{id: "r1", version: "v1", a: "x",
b: "y"}` with changes `{version: "v2", a: "z"}` returns and stores `b = NULL`,
not `b = "y"`. -/
theorem pgUpdate_clobbers_unsupplied_field :
    (Postgres.pgUpdate
        [[("id", .str "r1"), ("version", .str "v1"), ("a", .str "x"), ("b", .str "y")]]
        ["id", "version", "a", "b"] ["id"]
        [("id", .str "r1")] [("version", .str "v2"), ("a", .str "z")]).toOption.map
        (fun p => getField p.2 "b") = some JsValue.null ∧
      getField [("id", .str "r1"), ("version", .str "v1"), ("a", .str "x"), ("b", .str "y")] "b"
        = JsValue.str "y" := by
  constructor <;> rfl

/-- C5 as stated is wrong about the attribute-store backend: a conditional-put
failure on `create` with no caller-supplied error is thrown as `NotFound`
("Item was not found."), not as an `AlreadyExists` error. -/
theorem sdbCreate_default_not_alreadyExists :
    SimpleDb.sdbCreate [("r1", [("id", "r1"), ("version", "v1")])] "id"
        [("id", "r1"), ("version", "v2")] none = .error .notFound ∧
      Postgres.DbError.notFound ≠ Postgres.DbError.alreadyExists := by
  exact ⟨rfl, by decide⟩

/-- Claim C5 (amended): on the relational backend a duplicate `create` maps the
zero-row `INSERT ... ON CONFLICT DO NOTHING ... RETURNING` result to
`PreconditionFailed`; on the attribute-store backend the conditional-put
failure (primary-key attribute required absent) is thrown as the
caller-supplied already-exists error, defaulting to `NotFound` when none is
given. -/
theorem create_duplicate_spec
    (table : List Row) (identifyBy : List String) (row : Row)
    (d : Domain) (pk : String) (item : Attrs) (err : Option DbError)
    (hpg : table.any
      (fun r => identifyBy.all (fun k => jsEq (getField r k) (getField row k))) = true)
    (hsdb : (lookupAttr (sdbGet d (itemName item pk)) pk).isSome = true) :
    pgCreate table identifyBy row = .error .preconditionFailed ∧
      sdbCreate d pk item err = .error (err.getD .notFound) := by
  constructor
  · unfold pgCreate pgInsert
    rw [if_pos hpg]
  · unfold sdbCreate
    rw [if_pos hsdb]

/-- Witness for C5 (amended) at a one-row table and a one-item domain sharing
the target identity. -/
theorem create_duplicate_spec_witness :
    pgCreate [[("id", JsValue.str "r1"), ("a", JsValue.str "x")]] ["id"]
        [("id", JsValue.str "r1"), ("a", JsValue.str "w")] = .error .preconditionFailed ∧
      sdbCreate [("r1", [("id", "r1")])] "id" [("id", "r1")] (some .alreadyExists)
        = .error ((some Postgres.DbError.alreadyExists).getD .notFound) :=
  create_duplicate_spec _ _ _ _ _ _ _ (by rfl) (by rfl)

/-- `find?` over a filtered list agrees with `find?` over the original when
the filter keeps everything the search predicate accepts. -/
theorem find?_filter {α : Type} (l : List α) (p q : α → Bool)
    (h : ∀ x, q x = true → p x = true) : (l.filter p).find? q = l.find? q := by
  induction l with
  | nil => rfl
  | cons x xs ih =>
    by_cases hq : q x = true
    · rw [List.filter_cons, if_pos (h x hq)]
      rw [List.find?_cons_of_pos _ hq, List.find?_cons_of_pos _ hq]
    · rw [List.find?_cons_of_neg _ (by simpa using hq), ← ih]
      rw [List.filter_cons]
      split
      · rw [List.find?_cons_of_neg _ (by simpa using hq)]
      · rfl

/-- Claim C7: `batchRetrieve` returns one slot per requested identity, in
input order: the first matching record, or `null` when nothing matches; a
missing identity never fails the call (both backends are total functions). -/
theorem batchRetrieve_spec
    (table : List Row) (identities : List Row)
    (d : Domain) (pk : String) (ids : List Attrs) :
    pgBatchRetrieve table identities =
        identities.map (fun idq => table.find? (fun r => hasProperties r idq)) ∧
      (pgBatchRetrieve table identities).length = identities.length ∧
      sdbBatchRetrieve d pk ids =
        ids.map (fun idq =>
          if hasAttributes (sdbGet d (itemName idq pk)) idq
          then some (sdbGet d (itemName idq pk)) else none) ∧
      (sdbBatchRetrieve d pk ids).length = ids.length := by
  have hpg : pgBatchRetrieve table identities =
      identities.map (fun idq => table.find? (fun r => hasProperties r idq)) := by
    unfold pgBatchRetrieve
    by_cases hid : identities.isEmpty
    · rw [if_pos hid]
      rw [List.isEmpty_iff] at hid
      simp [hid]
    · rw [if_neg hid]
      apply List.map_congr_left
      intro idq hmem
      apply find?_filter
      intro r hr
      exact List.any_eq_true.mpr ⟨idq, hmem, hr⟩
  have hsdb : sdbBatchRetrieve d pk ids =
      ids.map (fun idq =>
        if hasAttributes (sdbGet d (itemName idq pk)) idq
        then some (sdbGet d (itemName idq pk)) else none) := by
    unfold sdbBatchRetrieve sdbRetrieve
    apply List.map_congr_left
    intro idq _
    by_cases hm : hasAttributes (sdbGet d (itemName idq pk)) idq = true
    · simp [hm]
    · simp [hm]
  refine ⟨hpg, ?_, hsdb, ?_⟩
  · rw [hpg, List.length_map]
  · rw [hsdb, List.length_map]

/-- `destroy` on an absent item fails with the not-found error: the
conditional delete's expectation cannot hold on an empty attribute set, and
the pre-read (when extra filters exist) cannot match. -/
theorem sdbDestroy_absent (d : Domain) (pk versionAttr : String) (identity : Attrs)
    (err : Option DbError)
    (habsent : d.find? (fun p => p.1 == itemName identity pk) = none) :
    sdbDestroy d pk versionAttr identity err = .error (err.getD .notFound) := by
  have hget : sdbGet d (itemName identity pk) = [] := by
    unfold sdbGet
    rw [habsent]
  unfold sdbDestroy
  rw [hget]
  by_cases hof : (identity.filter (fun p => !(p.1 == pk) && !(p.1 == versionAttr))).isEmpty
  · rw [if_pos hof]
    cases hv : lookupAttr identity versionAttr <;>
      simp [sdbDeleteChecked, hget, lookupAttr]
  · rw [if_neg hof]
    have hne : identity ≠ [] := by
      intro h0
      rw [h0] at hof
      exact hof rfl
    match identity, hne with
    | p :: rest, _ =>
      have : hasAttributes [] (p :: rest) = false := by
        simp [hasAttributes, lookupAttr]
      rw [this]
      simp

/-- Claim C8: for an identity that matches nothing, `destroy` fails with
`NotFound` on both backends, while `clear` succeeds and leaves the store
unchanged. -/
theorem destroy_notFound_clear_ok
    (table : List Row) (filters : Row)
    (d : Domain) (pk versionAttr : String) (identity : Attrs)
    (hpg : ∀ r ∈ table, hasProperties r filters = false)
    (hsdb : d.find? (fun p => p.1 == itemName identity pk) = none) :
    pgDestroy table filters = .error .notFound ∧
      pgClear table filters = table ∧
      sdbDestroy d pk versionAttr identity none = .error .notFound ∧
      sdbClear d pk versionAttr identity = .ok d := by
  have hmatch : table.filter (fun r => hasProperties r filters) = [] := by
    rw [List.filter_eq_nil_iff]
    intro r hr
    simp [hpg r hr]
  have hkeep : table.filter (fun r => !hasProperties r filters) = table := by
    rw [List.filter_eq_self]
    intro r hr
    simp [hpg r hr]
  refine ⟨?_, ?_, ?_, ?_⟩
  · unfold pgDestroy pgDelete
    rw [hmatch]
    rfl
  · unfold pgClear pgDelete
    simpa using hkeep
  · exact sdbDestroy_absent d pk versionAttr identity none hsdb
  · unfold sdbClear
    rw [sdbDestroy_absent d pk versionAttr identity (some (.custom 0)) hsdb]
    rfl

/-- Witness for C8 at an empty table and domain. -/
theorem destroy_notFound_clear_ok_witness :
    pgDestroy [] [("id", JsValue.str "r1")] = .error .notFound ∧
      pgClear [] [("id", JsValue.str "r1")] = [] ∧
      sdbDestroy [] "id" "version" [("id", "r1")] none = .error .notFound ∧
      sdbClear [] "id" "version" [("id", "r1")] = .ok [] :=
  destroy_notFound_clear_ok [] [("id", JsValue.str "r1")] [] "id" "version" [("id", "r1")]
    (by intro r hr; cases hr) (by rfl)

/-! ## Cursor pagination (postgres `list` + pagination helper)

The relational backend's `list`: scan the `SELECT ... [WHERE ordering > since]
ORDER BY ordering ASC` statement in chunks of 100 rows, accumulate, and cut a
page with `prepareForCursor`.  The engine's answer to the statement is
modelled as the ascending sort of the matching rows; a record carries an
opaque id and the integer ordering field.  The sortable-encoded `since` cursor
is order-isomorphic to the ordering value itself (claim C1), so the cursor is
carried as the value. -/

namespace Pagination

structure Rec where
  id : Nat
  ord : Int
deriving DecidableEq

def ordLe (a b : Rec) : Prop := a.ord ≤ b.ord

instance : DecidableRel ordLe := fun a b => inferInstanceAs (Decidable (a.ord ≤ b.ord))

instance : IsTotal Rec ordLe := ⟨fun a b => Int.le_total a.ord b.ord⟩

instance : IsTrans Rec ordLe := ⟨fun _ _ _ h1 h2 => le_trans h1 h2⟩

/-- The `WHERE ordering > $since` condition (absent when no cursor yet). -/
def matchSince (since : Option Int) (r : Rec) : Bool :=
  match since with
  | none => true
  | some s => decide (s < r.ord)

/-- The SQL engine's response to the generated select: the matching rows in
ascending ordering-field order. -/
def sqlSelectAsc (store : List Rec) (since : Option Int) : List Rec :=
  (List.insertionSort ordLe store).filter (matchSince since)

/-- The server-side cursor scan (`postgres-cursor.ts`, modelled from the spec:
"repeatedly fetch N rows, yield, stop when a fetch returns fewer than N
rows"): chunks of 100 rows. -/
def chunks100 : List Rec → List (List Rec)
  | [] => []
  | x :: xs => (x :: xs.take 99) :: chunks100 (xs.drop 99)
termination_by l => l.length
decreasing_by simp; omega

theorem chunks100_nil : chunks100 [] = [] := by
  rw [chunks100]

theorem chunks100_cons (x : Rec) (xs : List Rec) :
    chunks100 (x :: xs) = (x :: xs.take 99) :: chunks100 (xs.drop 99) := by
  rw [chunks100]

/-- Modelled from the spec: `prepareForCursor(results, ordering, direction)`
(`pagination.ts` is not under `src/`, §4.4): a batch smaller than the chunk
size (100) is not yet a page (`null`); otherwise the page keeps the
accumulated results and continues from the ordering value of the last
included result. -/
def prepareForCursor (results : List Rec) : Option (List Rec × Int) :=
  if results.length < 100 then none
  else
    match results.getLast? with
    | some last => some (results, last.ord)
    | none => none

structure Page where
  results : List Rec
  next : Option Int
deriving DecidableEq

/-- The accumulation loop of `PostgreSqlDbModel.list` over the scanned
chunks (including the source's early return of `items`, not the accumulated
`results`, on a short chunk). -/
def listLoop : List (List Rec) → List Rec → Page
  | [], results => ⟨results, none⟩
  | items :: rest, results =>
    if items.length < 100 then ⟨items, none⟩
    else
      match prepareForCursor (results ++ items) with
      | some c => ⟨c.1, some c.2⟩
      | none => listLoop rest (results ++ items)

/-- One `list({ordering, direction: 'asc', since?})` call. -/
def listQuery (store : List Rec) (since : Option Int) : Page :=
  listLoop (chunks100 (sqlSelectAsc store since)) []

/-- Repeatedly call `list`, following `next` until it is `null`, concatenating
the pages; `none` if the fuel runs out before the iteration terminates. -/
def followPages : Nat → List Rec → Option Int → Option (List Rec)
  | 0, _, _ => none
  | fuel + 1, store, since =>
    match h : listQuery store since with
    | ⟨results, none⟩ => some results
    | ⟨results, some s⟩ => (followPages fuel store (some s)).map (fun rest => results ++ rest)

/-- In a strictly ordered batch, filtering strictly above the `n`-th ordering
value is dropping the first `n + 1` rows. -/
theorem filter_since_get (L : List Rec) (n : Nat)
    (h : L.Pairwise (fun a b => a.ord < b.ord)) (hn : n < L.length) :
    L.filter (matchSince (some ((L.get ⟨n, hn⟩).ord))) = L.drop (n + 1) := by
  induction L generalizing n with
  | nil => simp at hn
  | cons a t ih =>
    have hpair := List.pairwise_cons.mp h
    cases n with
    | zero =>
      simp only [List.get]
      rw [List.filter_cons]
      have hself : matchSince (some a.ord) a = false := by
        simp [matchSince]
      rw [hself]
      simp only [Bool.false_eq_true, if_false, List.drop_succ_cons, List.drop_zero]
      rw [List.filter_eq_self]
      intro x hx
      simp [matchSince, hpair.1 x hx]
    | succ n =>
      simp only [List.get]
      rw [List.filter_cons]
      have hmem : t.get ⟨n, by simpa using hn⟩ ∈ t := List.get_mem _ _ _
      have hlt : a.ord < (t.get ⟨n, by simpa using hn⟩).ord := hpair.1 _ hmem
      have hself : matchSince (some ((t.get ⟨n, by simpa using hn⟩).ord)) a = false := by
        simp only [matchSince, decide_eq_false_iff_not]
        omega
      rw [hself]
      simp only [Bool.false_eq_true, if_false, List.drop_succ_cons]
      exact ih n hpair.2 _

theorem followPages_eq (fuel : Nat) (store : List Rec) (since : Option Int)
    (hsorted : (List.insertionSort ordLe store).Pairwise (fun a b => a.ord < b.ord))
    (hfuel : ((List.insertionSort ordLe store).filter (matchSince since)).length < 100 * fuel) :
    followPages fuel store since =
      some ((List.insertionSort ordLe store).filter (matchSince since)) := by
  induction fuel generalizing since with
  | zero => omega
  | succ fuel ih =>
    set L := List.insertionSort ordLe store with hL
    set M := L.filter (matchSince since) with hM
    have hMsorted : M.Pairwise (fun a b => a.ord < b.ord) := hsorted.filter _
    have hquery : listQuery store since = listLoop (chunks100 M) [] := by
      unfold listQuery sqlSelectAsc
      rw [← hL, ← hM]
    by_cases hlen : M.length < 100
    · -- a single short (or empty) chunk: final page
      have hpage : listQuery store since = ⟨M, none⟩ := by
        rw [hquery]
        rcases hM2 : M with _ | ⟨y, ys⟩
        · rw [chunks100_nil]
          rfl
        · have hlen2 : (y :: ys).length < 100 := by
            rw [hM2] at hlen
            exact hlen
          have hys : ys.length ≤ 99 := by
            simp at hlen2
            omega
          rw [chunks100_cons, List.take_of_length_le hys,
            List.drop_eq_nil_iff.mpr (by omega), chunks100_nil]
          rw [listLoop, if_pos hlen2]
      rw [followPages]
      split
      · rename_i results heq
        rw [hpage] at heq
        cases heq
        rfl
      · rename_i results s heq
        rw [hpage] at heq
        cases heq
    · -- a full chunk: page of 100 and a cursor at its last row
      push_neg at hlen
      have h99 : 99 < M.length := by omega
      set v : Int := (M.get ⟨99, h99⟩).ord with hv
      have hvmem : ∃ r ∈ M, r.ord = v := ⟨M.get ⟨99, h99⟩, List.get_mem _ _ _, rfl⟩
      have hvfilter : ∀ r ∈ M, matchSince since r = true := by
        intro r hr
        rw [hM] at hr
        exact (List.mem_filter.mp hr).2
      have hlast : (M.take 100).getLast? = some (M.get ⟨99, h99⟩) := by
        rw [List.getLast?_eq_getElem?, List.length_take]
        have hmin : min 100 M.length - 1 = 99 := by omega
        rw [hmin, List.getElem?_take_of_lt (by norm_num), List.getElem?_eq_getElem h99]
        rfl
      have hcc : chunks100 M = M.take 100 :: chunks100 (M.drop 100) := by
        have hMne : M ≠ [] := fun h0 => by rw [h0] at h99; simp at h99
        obtain ⟨y, ys, hM2⟩ := List.exists_cons_of_ne_nil hMne
        rw [hM2, chunks100_cons]
        rfl
      have h100 : (M.take 100).length = 100 := by
        rw [List.length_take]
        omega
      have hpage : listQuery store since = ⟨M.take 100, some v⟩ := by
        rw [hquery, hcc, listLoop, if_neg (by omega)]
        unfold prepareForCursor
        rw [List.nil_append, h100, if_neg (by omega), hlast]
      have hnextM : L.filter (matchSince (some v)) = M.drop 100 := by
        have hsub : L.filter (matchSince (some v)) = M.filter (matchSince (some v)) := by
          conv_rhs => rw [hM]
          rw [List.filter_filter]
          apply List.filter_congr
          intro r _
          cases hsince : since with
          | none =>
            show matchSince (some v) r = (matchSince (some v) r && matchSince none r)
            simp [matchSince]
          | some s =>
            obtain ⟨z, hzmem, hzord⟩ := hvmem
            have hs : s < v := by
              have hflt := hvfilter z hzmem
              rw [hsince] at hflt
              simp only [matchSince, decide_eq_true_eq] at hflt
              omega
            show matchSince (some v) r = (matchSince (some v) r && matchSince (some s) r)
            by_cases hvr : v < r.ord
            · have hsr : s < r.ord := by omega
              simp [matchSince, hvr, hsr]
            · simp [matchSince, hvr]
        rw [hsub, hv, filter_since_get M 99 hMsorted h99]
      rw [followPages]
      split
      · rename_i results heq
        rw [hpage] at heq
        cases heq
      · rename_i results s heq
        rw [hpage] at heq
        cases heq
        have hrec := ih (some v) (by rw [hnextM, List.length_drop]; omega)
        rw [hrec, hnextM]
        simp [List.take_append_drop]

/-- Claim C3: for a store whose integer ordering values are pairwise distinct,
calling `list({ordering, direction: 'asc'})` and following `next` until it is
`null` terminates and yields, over all pages concatenated, exactly the
ascending sort of the store — every record once, none missing, in ascending
ordering-field order. -/
theorem list_paginates_all (store : List Rec)
    (hdistinct : store.Pairwise (fun a b => a.ord ≠ b.ord)) :
    followPages (store.length + 1) store none =
        some (List.insertionSort ordLe store) ∧
      List.Sorted ordLe (List.insertionSort ordLe store) ∧
      (List.insertionSort ordLe store).Perm store := by
  have hperm : (List.insertionSort ordLe store).Perm store := List.perm_insertionSort _ _
  have hsort : List.Sorted ordLe (List.insertionSort ordLe store) :=
    List.sorted_insertionSort _ _
  have hne : (List.insertionSort ordLe store).Pairwise (fun a b => a.ord ≠ b.ord) :=
    (hperm.pairwise_iff (fun h => h.symm)).mpr hdistinct
  have hstrict : (List.insertionSort ordLe store).Pairwise (fun a b => a.ord < b.ord) := by
    have hand := List.Pairwise.and hsort hne
    exact hand.imp (fun h => lt_of_le_of_ne h.1 h.2)
  have hfilter : (List.insertionSort ordLe store).filter (matchSince none) =
      List.insertionSort ordLe store := by
    rw [List.filter_eq_self]
    intro r _
    rfl
  have hlen : ((List.insertionSort ordLe store).filter (matchSince none)).length <
      100 * (store.length + 1) := by
    rw [hfilter, hperm.length_eq]
    omega
  refine ⟨?_, hsort, hperm⟩
  rw [followPages_eq _ _ _ hstrict hlen, hfilter]

/-- Witness for C3 at a store of 250 records with ordering values `0..249`. -/
theorem list_paginates_all_witness :
    followPages (((List.range 250).map (fun i => Rec.mk i i)).length + 1)
        ((List.range 250).map (fun i => Rec.mk i i)) none =
        some (List.insertionSort ordLe ((List.range 250).map (fun i => Rec.mk i i))) ∧
      List.Sorted ordLe (List.insertionSort ordLe ((List.range 250).map (fun i => Rec.mk i i))) ∧
      (List.insertionSort ordLe ((List.range 250).map (fun i => Rec.mk i i))).Perm
        ((List.range 250).map (fun i => Rec.mk i i)) :=
  list_paginates_all _ (by
    apply List.Pairwise.map
    · intro i j hij
      exact hij
    · exact (List.pairwise_lt_range 250).imp (by intro i j hij; simp; omega))

end Pagination

/-! ## Field codec (fields module)

The codec classes are embedded method by method: each method of
`NullableField` / `ListField` delegates only to the matching method of the
wrapped field, so the decorators become per-method combinators.  Failures
(`throw new ValidationError(...)`) are `Except.error` with the message. -/

namespace Fields

/-- JS truthiness. -/
def jsTruthy : JsValue → Bool
  | .undef => false
  | .null => false
  | .bool b => b
  | .num q => decide (q ≠ 0)
  | .nan => false
  | .str s => decide (s ≠ "")
  | .arr _ => true

/-- `isNullable(value)`: `value === null || value === ''`. -/
def isNullable : JsValue → Bool
  | .null => true
  | .str s => decide (s = "")
  | _ => false

/-- `Math.trunc` on an exact rational: integer division of the numerator by
the denominator rounding toward zero (`Int.tdiv`). -/
def truncQ (q : ℚ) : Int := q.num.tdiv (q.den : Int)

def digitsVal (cs : List Char) : Nat :=
  cs.foldl (fun acc c => acc * 10 + (c.toNat - 48)) 0

def intToString (i : Int) : String :=
  if i < 0 then ⟨'-' :: natDigits i.natAbs⟩ else ⟨natDigits i.toNat⟩

/-- JS `parseInt(s, 10)`: optional sign, then the longest digit prefix;
`NaN` when there is none. -/
def parseIntDigits (cs : List Char) : Option Int :=
  if (cs.takeWhile Char.isDigit).isEmpty then none
  else some (digitsVal (cs.takeWhile Char.isDigit) : Int)

def parseIntChars : List Char → Option Int
  | [] => none
  | c :: cs =>
    if c = '-' then (parseIntDigits cs).map (fun i => -i)
    else if c = '+' then parseIntDigits cs
    else parseIntDigits (c :: cs)

def parseIntJs (s : String) : JsValue :=
  match parseIntChars s.data with
  | some i => .num (i : ℚ)
  | none => .nan

/-- JS `parseFloat(s)` on the plain decimal grammar `[+-]? digits [. digits]?`
(prefix parse; exponents and `Infinity`, never produced by this codebase's
encoders, are outside the modelled subset of the builtin). -/
def parseFloatChars (cs : List Char) : Option ℚ :=
  let core := fun (cs1 : List Char) =>
    let intPart := cs1.takeWhile Char.isDigit
    let rest := cs1.dropWhile Char.isDigit
    let fracPart := match rest with
      | '.' :: t => t.takeWhile Char.isDigit
      | _ => []
    if intPart.isEmpty ∧ fracPart.isEmpty then none
    else some ((digitsVal intPart : ℚ) + (digitsVal fracPart : ℚ) / 10 ^ fracPart.length)
  match cs with
  | '-' :: t => (core t).map (fun q => -q)
  | '+' :: t => core t
  | _ => core cs

def parseFloatJs (s : String) : JsValue :=
  match parseFloatChars s.data with
  | some q => .num q
  | none => .nan

/-! ### `encodeURIComponent` / `decodeURIComponent` (boundary builtins) -/

/-- The characters `encodeURIComponent` leaves unescaped. -/
def uriUnreserved (c : Char) : Bool :=
  (decide ('A' ≤ c) && decide (c ≤ 'Z')) ||
  (decide ('a' ≤ c) && decide (c ≤ 'z')) ||
  (decide ('0' ≤ c) && decide (c ≤ '9')) ||
  decide (c = '-') || decide (c = '_') || decide (c = '.') || decide (c = '!') ||
  decide (c = '~') || decide (c = '*') || decide (c = '\'') ||
  decide (c = '(') || decide (c = ')')

def hexDigitUpper (n : Nat) : Char :=
  if n < 10 then Char.ofNat (48 + n) else Char.ofNat (55 + n)

/-- UTF-8 bytes of one scalar value. -/
def utf8Bytes (c : Char) : List Nat :=
  let n := c.toNat
  if n < 128 then [n]
  else if n < 2048 then [192 + n / 64, 128 + n % 64]
  else if n < 65536 then [224 + n / 4096, 128 + n / 64 % 64, 128 + n % 64]
  else [240 + n / 262144, 128 + n / 4096 % 64, 128 + n / 64 % 64, 128 + n % 64]

def uriEncodeChar (c : Char) : List Char :=
  if uriUnreserved c then [c]
  else ((utf8Bytes c).map (fun b => ['%', hexDigitUpper (b / 16), hexDigitUpper (b % 16)])).flatten

def uriEncode (s : String) : String :=
  ⟨(s.data.map uriEncodeChar).flatten⟩

/-- `decodeURIComponent` on the subset reachable from this codebase's
encoders: plain characters pass through, `%HH` sequences below `0x80` decode
to the byte's character; anything else (malformed escapes, multi-byte UTF-8
runs — never produced by the unreserved-ASCII encoders embedded here) is a
`URIError` (`none`). -/
def uriDecodeChars : List Char → Option (List Char)
  | [] => some []
  | c :: cs =>
    if c = '%' then
      match cs with
      | h1 :: h2 :: rest =>
        match NumberField.hexVal? h1, NumberField.hexVal? h2 with
        | some d1, some d2 =>
          if d1 * 16 + d2 < 128 then
            (uriDecodeChars rest).map (Char.ofNat (d1 * 16 + d2) :: ·)
          else none
        | _, _ => none
      | _ => none
    else (uriDecodeChars cs).map (c :: ·)

def uriDecode (s : String) : Option String :=
  (uriDecodeChars s.data).map (fun l => ⟨l⟩)

/-! ### `join('&')` / `split('&')` -/

def joinAmpChars : List (List Char) → List Char
  | [] => []
  | [p] => p
  | p :: rest => p ++ '&' :: joinAmpChars rest

def joinAmp (pieces : List String) : String :=
  ⟨joinAmpChars (pieces.map String.data)⟩

def splitAmpChars : List Char → List (List Char)
  | [] => [[]]
  | c :: cs =>
    if c = '&' then [] :: splitAmpChars cs
    else
      match splitAmpChars cs with
      | p :: ps => (c :: p) :: ps
      | [] => [[c]]

def splitAmp (s : String) : List String :=
  (splitAmpChars s.data).map (fun l => ⟨l⟩)

/-! ### NumberField -/

/-- `NumberField.validate`: a finite number within the optional bounds. -/
def numberValidate (lo hi : Option ℚ) (v : JsValue) : Except String JsValue :=
  match v with
  | .num q =>
    match lo with
    | some m =>
      if q < m then .error "Value cannot be less than min"
      else
        match hi with
        | some M => if q > M then .error "Value cannot be greater than max" else .ok (.num q)
        | none => .ok (.num q)
    | none =>
      match hi with
      | some M => if q > M then .error "Value cannot be greater than max" else .ok (.num q)
      | none => .ok (.num q)
  | _ => .error "Invalid number value"

def numberSerialize (lo hi : Option ℚ) (v : JsValue) : Except String JsValue :=
  numberValidate lo hi v

/-- `NumberField.decode`: `validate(parseFloat(value))`. -/
def numberDecode (lo hi : Option ℚ) (s : String) : Except String JsValue :=
  numberValidate lo hi (parseFloatJs s)

def numberDeserialize (lo hi : Option ℚ) (v : JsValue) : Except String JsValue :=
  match v with
  | .null => .error "Missing number value"
  | .undef => .error "Missing number value"
  | .str s => numberDecode lo hi s
  | .num q => numberValidate lo hi (.num q)
  | .nan => numberValidate lo hi .nan
  | _ => .error "Invalid number value"

/-! ### IntegerField -/

/-- `MAX_INTEGER` / `MIN_INTEGER`: the 32-bit range (tighter than the safe
integer range). -/
def maxInteger : ℚ := 2147483647

def minInteger : ℚ := -2147483648

/-- `Number.MIN_SAFE_INTEGER`. -/
def minSafeInteger : ℚ := -9007199254740991

/-- `IntegerField.validate`: finite, within the 32-bit range and the optional
bounds, truncated toward zero. -/
def integerValidate (lo hi : Option ℚ) (v : JsValue) : Except String JsValue :=
  match v with
  | .num q =>
    if q > maxInteger then .error "Integer value cannot be greater than MAX_INTEGER"
    else if q < minInteger then .error "Integer value cannot be less than MIN_INTEGER"
    else (numberValidate lo hi (.num q)).map (fun r =>
      match r with
      | .num q2 => .num ((truncQ q2 : Int) : ℚ)
      | other => other)
  | _ => .error "Invalid integer value"

def integerSerialize (lo hi : Option ℚ) (v : JsValue) : Except String JsValue :=
  integerValidate lo hi v

/-- `IntegerField.encode`: `serialize(value).toFixed(0)` (the serialized value
is already integral, so this is its decimal rendering). -/
def integerEncode (lo hi : Option ℚ) (v : JsValue) : Except String String :=
  (integerSerialize lo hi v).map (fun r =>
    match r with
    | .num q => intToString (truncQ q)
    | _ => "")

/-- `IntegerField.deserialize`: strings are parsed with `parseInt` (a leading
`'!'` marks the offset-from-`MIN_SAFE_INTEGER` sortable scheme), then
validated as numbers. -/
def integerDeserialize (lo hi : Option ℚ) (v : JsValue) : Except String JsValue :=
  match v with
  | .null => .error "Missing integer value"
  | .undef => .error "Missing integer value"
  | .str s =>
    match s.data with
    | c :: rest =>
      if c = '!' then
        integerValidate lo hi
          (match parseIntJs ⟨rest⟩ with
            | .num q => .num (q + minSafeInteger)
            | _ => .nan)
      else integerValidate lo hi (parseIntJs s)
    | [] => integerValidate lo hi (parseIntJs s)
  | .num q => integerValidate lo hi (.num q)
  | .nan => integerValidate lo hi .nan
  | _ => .error "Invalid integer value"

def integerDecode (lo hi : Option ℚ) (s : String) : Except String JsValue :=
  integerDeserialize lo hi (.str s)

/-! ### BooleanField -/

/-- `BooleanField.validate`: `return value` — no runtime check. -/
def booleanValidate (v : JsValue) : Except String JsValue := .ok v

def booleanSerialize (v : JsValue) : Except String JsValue := .ok v

def booleanDeserialize (v : JsValue) : Except String JsValue :=
  match v with
  | .bool b => .ok (.bool b)
  | _ => .error "Invalid boolean value"

/-- `BooleanField.encode`: `value ? 'true' : 'false'`. -/
def booleanEncode (v : JsValue) : Except String String :=
  .ok (if jsTruthy v then "true" else "false")

def booleanDecode (s : String) : Except String JsValue :=
  if s = "true" then .ok (.bool true)
  else if s = "false" then .ok (.bool false)
  else .error "Invalid encoded boolean value"

/-! ### NullableField

Each method is `(!isNullable(value) && this.field.m(value)) || null` (or
`|| ''` for `encode`): nullable inputs short-circuit, and a falsy result of
the wrapped method collapses to `null`. -/

def nullableCollapse (g : JsValue → Except String JsValue) (v : JsValue) :
    Except String JsValue :=
  if isNullable v then .ok .null
  else (g v).map (fun r => if jsTruthy r then r else .null)

/-- `deserialize`: `value === null || value === '' ? null :
field.deserialize(value)` — no truthiness collapse here. -/
def nullableDeserialize (g : JsValue → Except String JsValue) (v : JsValue) :
    Except String JsValue :=
  if isNullable v then .ok .null else g v

/-- `encode`: `(!isNullable(value) && field.encode(value)) || ''` — the only
falsy string is `''`, which `|| ''` maps to itself, so the non-nullable branch
passes the wrapped encoding through. -/
def nullableEncode (g : JsValue → Except String String) (v : JsValue) :
    Except String String :=
  if isNullable v then .ok "" else g v

def nullableDecode (g : String → Except String JsValue) (s : String) :
    Except String JsValue :=
  if s = "" then .ok .null
  else (g s).map (fun r => if jsTruthy r then r else .null)

/-! ### ListField -/

/-- `mapWith`: apply the iteratee to every item, collecting nested validation
errors into one composite `ValidationError('Invalid items')`. -/
def collectExc : List (Except String β) → Except String (List β)
  | [] => .ok []
  | .ok b :: rest => (collectExc rest).map (fun bs => b :: bs)
  | .error _ :: _ => .error "Invalid items"

def mapWithCollect (f : α → Except String β) (xs : List α) : Except String (List β) :=
  collectExc (xs.map f)

/-- `validate` (and `serialize`, `deserialize`): element-wise on an array;
anything else is rejected. -/
def listValidate (g : JsValue → Except String JsValue) (v : JsValue) :
    Except String JsValue :=
  match v with
  | .arr xs => (mapWithCollect g xs).map (fun ys => .arr ys)
  | _ => .error "Value is not an array"

def listDeserialize (g : JsValue → Except String JsValue) (v : JsValue) :
    Except String JsValue :=
  match v with
  | .arr xs => (mapWithCollect g xs).map (fun ys => .arr ys)
  | _ => .error "Value is not an array"

/-- `encode`: `items.map(x => encodeURIComponent(field.encode(x))).join('&')`. -/
def listEncode (g : JsValue → Except String String) (v : JsValue) :
    Except String String :=
  match v with
  | .arr xs => (mapWithCollect (fun x => (g x).map uriEncode) xs).map joinAmp
  | _ => .error "Value is not an array"

/-- `decode`: `(value ? value.split('&') : []).map(x =>
field.decode(decodeURIComponent(x)))`. -/
def listDecode (g : String → Except String JsValue) (s : String) :
    Except String JsValue :=
  (mapWithCollect
      (fun piece =>
        match uriDecode piece with
        | some t => g t
        | none => .error "URIError")
      (if s = "" then [] else splitAmp s)).map (fun ys => .arr ys)

/-! ### The embedded field variants -/

/-- The embedded closed set of field variants: the claim's cited
`IntegerField`, `NullableField` and `ListField`, plus `BooleanField`
(`integer()` and `boolean()` carry no options). -/
inductive FieldSpec where
  | integer
  | boolean
  | nullable (f : FieldSpec)
  | list (f : FieldSpec)

def validateF : FieldSpec → JsValue → Except String JsValue
  | .integer => integerValidate none none
  | .boolean => booleanValidate
  | .nullable f => nullableCollapse (validateF f)
  | .list f => listValidate (validateF f)

def serializeF : FieldSpec → JsValue → Except String JsValue
  | .integer => integerSerialize none none
  | .boolean => booleanSerialize
  | .nullable f => nullableCollapse (serializeF f)
  | .list f => listValidate (serializeF f)

def deserializeF : FieldSpec → JsValue → Except String JsValue
  | .integer => integerDeserialize none none
  | .boolean => booleanDeserialize
  | .nullable f => nullableDeserialize (deserializeF f)
  | .list f => listDeserialize (deserializeF f)

def encodeF : FieldSpec → JsValue → Except String String
  | .integer => integerEncode none none
  | .boolean => booleanEncode
  | .nullable f => nullableEncode (encodeF f)
  | .list f => listEncode (encodeF f)

def decodeF : FieldSpec → String → Except String JsValue
  | .integer => integerDecode none none
  | .boolean => booleanDecode
  | .nullable f => nullableDecode (decodeF f)
  | .list f => listDecode (decodeF f)

/-- The TypeScript value domain `I` of a field: `validate(value: I)` is only
ever applied to statically well-typed inputs. -/
def hasType : FieldSpec → JsValue → Bool
  | .integer, v =>
    match v with
    | .num _ => true
    | .nan => true
    | _ => false
  | .boolean, v =>
    match v with
    | .bool _ => true
    | _ => false
  | .nullable f, v =>
    match v with
    | .null => true
    | _ => hasType f v
  | .list f, v =>
    match v with
    | .arr xs => xs.all (fun x => hasType f x)
    | _ => false

def isBase : FieldSpec → Bool
  | .integer => true
  | .boolean => true
  | _ => false

def listFree : FieldSpec → Bool
  | .integer => true
  | .boolean => true
  | .nullable f => listFree f
  | .list _ => false

/-- The composition scope on which the round-trip law holds: base fields,
nullable wrappers over list-free fields, and lists of base fields.  (Outside
it the encodings collide: a list's blank element encoding is indistinguishable
from the empty list — the source's own `TODO: Should differentiate an empty
array vs. an array with a blank value!`.) -/
def scopeOK : FieldSpec → Bool
  | .integer => true
  | .boolean => true
  | .nullable f => scopeOK f && listFree f
  | .list f => isBase f

end Fields

end Broiling
namespace Broiling
namespace Fields

theorem isOk_map (e : Except String α) (f : α → β) : (e.map f).isOk = e.isOk := by
  cases e <;> rfl

theorem mapWithCollect_diag (g : α → Except String α) (xs : List α)
    (h : ∀ x ∈ xs, g x = .ok x) : mapWithCollect g xs = .ok xs := by
  induction xs with
  | nil => rfl
  | cons a t ih =>
    have ha := h a (by simp)
    have ht := ih (fun x hx => h x (by simp [hx]))
    unfold mapWithCollect at ht ⊢
    simp only [List.map_cons]
    rw [ha]
    simp [collectExc, ht, Except.map]

theorem collectExc_ok_forall₂ (ls : List (Except String α)) (bs : List α)
    (h : collectExc ls = .ok bs) :
    List.Forall₂ (fun e b => e = Except.ok b) ls bs := by
  induction ls generalizing bs with
  | nil =>
    simp [collectExc] at h
    subst h
    exact .nil
  | cons e t ih =>
    cases e with
    | ok b =>
      cases hc : collectExc t with
      | ok bs' =>
        simp [collectExc, hc, Except.map] at h
        subst h
        exact .cons rfl (ih _ hc)
      | error e' => simp [collectExc, hc, Except.map] at h
    | error e' => simp [collectExc] at h

theorem mapWithCollect_fix (g : α → Except String α) (xs : List α)
    (h : mapWithCollect g xs = .ok xs) : ∀ x ∈ xs, g x = .ok x := by
  have h2 := collectExc_ok_forall₂ _ _ h
  rw [List.forall₂_map_left_iff] at h2
  exact List.forall₂_same.mp h2

theorem mapWithCollect_isOk_congr (g : α → Except String β) (g' : α → Except String γ)
    (xs : List α) (hc : ∀ x ∈ xs, (g x).isOk = (g' x).isOk) :
    (mapWithCollect g xs).isOk = (mapWithCollect g' xs).isOk := by
  induction xs with
  | nil => rfl
  | cons a t ih =>
    have ha := hc a (by simp)
    have ht := ih (fun x hx => hc x (by simp [hx]))
    unfold mapWithCollect at ht ⊢
    simp only [List.map_cons]
    cases hga : g a with
    | ok b =>
      cases hgb : g' a with
      | ok b' => simp [collectExc, isOk_map, ht]
      | error e' => rw [hga, hgb] at ha; simp [Except.isOk, Except.toBool] at ha
    | error e =>
      cases hgb : g' a with
      | ok b' => rw [hga, hgb] at ha; simp [Except.isOk, Except.toBool] at ha
      | error e' => rfl

theorem digitsVal_append (l : List Char) (c : Char) :
    digitsVal (l ++ [c]) = digitsVal l * 10 + (c.toNat - 48) := by
  unfold digitsVal
  rw [List.foldl_append]
  rfl

theorem natDigits_ne_nil (n : Nat) : natDigits n ≠ [] := by
  rw [natDigits]
  split_ifs <;> simp

theorem natDigits_mem (n : Nat) :
    ∀ c ∈ natDigits n, ∃ d, d < 10 ∧ c = Char.ofNat (48 + d) := by
  induction n using Nat.strong_induction_on with
  | _ n ih =>
    rw [natDigits]
    split_ifs with h
    · intro c hc
      simp at hc
      exact ⟨n, h, hc⟩
    · intro c hc
      rw [List.mem_append] at hc
      rcases hc with hm | hm
      · exact ih (n / 10) (Nat.div_lt_self (by omega) (by norm_num)) c hm
      · simp at hm
        exact ⟨n % 10, Nat.mod_lt _ (by norm_num), hm⟩

theorem digitsVal_natDigits (n : Nat) : digitsVal (natDigits n) = n := by
  induction n using Nat.strong_induction_on with
  | _ n ih =>
    rw [natDigits]
    split_ifs with h
    · interval_cases n <;> decide
    · rw [digitsVal_append, ih (n / 10) (Nat.div_lt_self (by omega) (by norm_num))]
      have h10 : n % 10 < 10 := Nat.mod_lt _ (by norm_num)
      have htn : (Char.ofNat (48 + n % 10)).toNat = 48 + n % 10 := by
        set m := n % 10 with hm
        clear_value m
        interval_cases m <;> decide
      rw [htn]
      omega

theorem takeWhile_all (p : Char → Bool) (l : List Char) (h : ∀ c ∈ l, p c = true) :
    l.takeWhile p = l := by
  induction l with
  | nil => rfl
  | cons a t ih =>
    rw [List.takeWhile_cons, if_pos (h a (by simp))]
    rw [ih (fun c hc => h c (by simp [hc]))]

theorem digit_char_isDigit (d : Nat) (h : d < 10) :
    (Char.ofNat (48 + d)).isDigit = true := by
  interval_cases d <;> decide

theorem natDigits_all_isDigit (n : Nat) : ∀ c ∈ natDigits n, c.isDigit = true := by
  intro c hc
  obtain ⟨d, hd, rfl⟩ := natDigits_mem n c hc
  exact digit_char_isDigit d hd

theorem parseIntDigits_natDigits (n : Nat) :
    parseIntDigits (natDigits n) = some (n : Int) := by
  unfold parseIntDigits
  rw [takeWhile_all _ _ (natDigits_all_isDigit n)]
  rw [if_neg (by simp [List.isEmpty_iff, natDigits_ne_nil])]
  rw [digitsVal_natDigits]

end Fields
end Broiling
namespace Broiling
namespace Fields

theorem digit_char_ne (d : Nat) (h : d < 10) :
    Char.ofNat (48 + d) ≠ '-' ∧ Char.ofNat (48 + d) ≠ '+' ∧ Char.ofNat (48 + d) ≠ '!' ∧
      uriUnreserved (Char.ofNat (48 + d)) = true := by
  interval_cases d <;> exact ⟨by decide, by decide, by decide, by decide⟩

theorem parseIntChars_natDigits (n : Nat) :
    parseIntChars (natDigits n) = some (n : Int) := by
  obtain ⟨c, rest, hcr⟩ := List.exists_cons_of_ne_nil (natDigits_ne_nil n)
  have hcmem : c ∈ natDigits n := by rw [hcr]; simp
  obtain ⟨d, hd, hcd⟩ := natDigits_mem n c hcmem
  have hcm : c ≠ '-' := by rw [hcd]; exact (digit_char_ne d hd).1
  have hcp : c ≠ '+' := by rw [hcd]; exact (digit_char_ne d hd).2.1
  rw [hcr, parseIntChars, if_neg hcm, if_neg hcp, ← hcr, parseIntDigits_natDigits]

theorem parseIntJs_intToString (k : Int) :
    parseIntJs (intToString k) = .num (k : ℚ) := by
  unfold intToString
  split_ifs with hk
  · show parseIntJs ⟨'-' :: natDigits k.natAbs⟩ = _
    have h1 : parseIntChars ('-' :: natDigits k.natAbs) = some (-(k.natAbs : Int)) := by
      rw [parseIntChars, if_pos rfl]
      show Option.map _ (parseIntDigits (natDigits k.natAbs)) = _
      rw [parseIntDigits_natDigits]
      rfl
    show (match parseIntChars ('-' :: natDigits k.natAbs) with
      | some i => JsValue.num (i : ℚ)
      | none => JsValue.nan) = JsValue.num (k : ℚ)
    rw [h1]
    have h2 : (-(k.natAbs : Int)) = k := by omega
    rw [h2]
  · show parseIntJs ⟨natDigits k.toNat⟩ = _
    show (match parseIntChars (natDigits k.toNat) with
      | some i => JsValue.num (i : ℚ)
      | none => JsValue.nan) = JsValue.num (k : ℚ)
    rw [parseIntChars_natDigits]
    have h2 : ((k.toNat : Int)) = k := by omega
    rw [h2]

theorem intToString_ne_empty (k : Int) : intToString k ≠ "" := by
  unfold intToString
  split_ifs <;> simp [String.ext_iff, natDigits_ne_nil]

theorem intToString_unreserved (k : Int) :
    ∀ c ∈ (intToString k).data, uriUnreserved c = true := by
  unfold intToString
  split_ifs with hk <;> intro c hc
  · show uriUnreserved c = true
    rcases List.mem_cons.mp hc with h | h
    · rw [h]; decide
    · obtain ⟨d, hd, rfl⟩ := natDigits_mem _ c h
      exact (digit_char_ne d hd).2.2.2
  · obtain ⟨d, hd, rfl⟩ := natDigits_mem _ c hc
    exact (digit_char_ne d hd).2.2.2

theorem intToString_head_ne_bang (k : Int) (c : Char) (rest : List Char)
    (h : (intToString k).data = c :: rest) : c ≠ '!' := by
  unfold intToString at h
  split_ifs at h with hk
  · have : c = '-' := by
      have := congrArg (fun l => l.head?) h
      simpa using this.symm
    rw [this]; decide
  · have hcm : c ∈ natDigits k.toNat := by
      have : (⟨natDigits k.toNat⟩ : String).data = natDigits k.toNat := rfl
      rw [this] at h
      rw [h]; simp
    obtain ⟨d, hd, rfl⟩ := natDigits_mem _ c hcm
    exact (digit_char_ne d hd).2.2.1

theorem truncQ_intCast (k : Int) : truncQ (k : ℚ) = k := by
  unfold truncQ
  rw [Rat.num_intCast, Rat.den_intCast]
  exact Int.tdiv_one k

theorem integerValidate_none (q : ℚ) :
    integerValidate none none (.num q) =
      if q > maxInteger then .error "Integer value cannot be greater than MAX_INTEGER"
      else if q < minInteger then .error "Integer value cannot be less than MIN_INTEGER"
      else .ok (.num ((truncQ q : Int) : ℚ)) := by
  simp only [integerValidate, numberValidate]
  split_ifs with h1 h2 <;> rfl

theorem integerValidate_fix (q : ℚ)
    (h : integerValidate none none (.num q) = .ok (.num q)) :
    ((truncQ q : Int) : ℚ) = q ∧ ¬ q > maxInteger ∧ ¬ q < minInteger := by
  rw [integerValidate_none] at h
  by_cases h1 : q > maxInteger
  · rw [if_pos h1] at h; exact absurd h (by simp)
  rw [if_neg h1] at h
  by_cases h2 : q < minInteger
  · rw [if_pos h2] at h; exact absurd h (by simp)
  rw [if_neg h2] at h
  simp only [Except.ok.injEq, JsValue.num.injEq] at h
  exact ⟨h, h1, h2⟩

theorem integer_fix_roundtrip (v : JsValue)
    (hfix : validateF .integer v = .ok v) :
    serializeF .integer v = .ok v ∧ deserializeF .integer v = .ok v ∧
      ∃ s : String, encodeF .integer v = .ok s ∧ s ≠ "" ∧
        (∀ c ∈ s.data, uriUnreserved c = true) ∧ decodeF .integer s = .ok v := by
  cases v with
  | num q =>
    have hfix' : integerValidate none none (JsValue.num q) = .ok (.num q) := hfix
    obtain ⟨hq, h1, h2⟩ := integerValidate_fix q hfix'
    refine ⟨hfix, hfix, intToString (truncQ q), ?_, intToString_ne_empty _,
      intToString_unreserved _, ?_⟩
    · show (integerValidate none none (.num q)).map _ = _
      rw [hfix']
      rfl
    · show integerDeserialize none none (.str (intToString (truncQ q))) = _
      have hne : (intToString (truncQ q)).data ≠ [] := by
        intro hnil
        exact intToString_ne_empty (truncQ q) (String.ext hnil)
      obtain ⟨c, rest, hcr⟩ := List.exists_cons_of_ne_nil hne
      simp only [integerDeserialize, hcr]
      rw [if_neg (intToString_head_ne_bang _ _ _ hcr)]
      rw [parseIntJs_intToString, hq]
      exact hfix'
  | undef => exact absurd hfix (by simp [validateF, integerValidate])
  | null => exact absurd hfix (by simp [validateF, integerValidate])
  | bool b => exact absurd hfix (by simp [validateF, integerValidate])
  | nan => exact absurd hfix (by simp [validateF, integerValidate])
  | str s => exact absurd hfix (by simp [validateF, integerValidate])
  | arr xs => exact absurd hfix (by simp [validateF, integerValidate])

end Fields
end Broiling
namespace Broiling
namespace Fields

theorem boolean_fix_roundtrip (b : Bool) :
    serializeF .boolean (.bool b) = .ok (.bool b) ∧
      deserializeF .boolean (.bool b) = .ok (.bool b) ∧
      ∃ s : String, encodeF .boolean (.bool b) = .ok s ∧ s ≠ "" ∧
        (∀ c ∈ s.data, uriUnreserved c = true) ∧ decodeF .boolean s = .ok (.bool b) := by
  cases b
  · exact ⟨rfl, rfl, "false", rfl, by simp, by decide, rfl⟩
  · exact ⟨rfl, rfl, "true", rfl, by simp, by decide, rfl⟩

theorem unreserved_ne_pct (c : Char) (h : uriUnreserved c = true) : c ≠ '%' := by
  intro he; rw [he] at h; exact absurd h (by decide)

theorem unreserved_ne_amp (c : Char) (h : uriUnreserved c = true) : c ≠ '&' := by
  intro he; rw [he] at h; exact absurd h (by decide)

theorem uriEncodeChars_unres (l : List Char) (h : ∀ c ∈ l, uriUnreserved c = true) :
    (l.map uriEncodeChar).flatten = l := by
  induction l with
  | nil => rfl
  | cons a t ih =>
    simp only [List.map_cons, List.flatten_cons]
    rw [uriEncodeChar, if_pos (h a (by simp))]
    rw [ih (fun c hc => h c (by simp [hc]))]
    rfl

theorem uriEncode_unres (s : String) (h : ∀ c ∈ s.data, uriUnreserved c = true) :
    uriEncode s = s :=
  String.ext (uriEncodeChars_unres s.data h)

theorem uriDecodeChars_cons_ne (a : Char) (t : List Char) (ha : ¬ a = '%') :
    uriDecodeChars (a :: t) = (uriDecodeChars t).map (a :: ·) := by
  rw [uriDecodeChars.eq_def]
  split
  next => simp_all
  next c cs h =>
    injection h with h1 h2
    subst h1
    subst h2
    rw [if_neg ha]

theorem uriDecodeChars_unres (l : List Char) (h : ∀ c ∈ l, uriUnreserved c = true) :
    uriDecodeChars l = some l := by
  induction l with
  | nil => rfl
  | cons a t ih =>
    rw [uriDecodeChars_cons_ne a t (unreserved_ne_pct a (h a (by simp)))]
    rw [ih (fun c hc => h c (by simp [hc]))]
    rfl

theorem uriDecode_unres (s : String) (h : ∀ c ∈ s.data, uriUnreserved c = true) :
    uriDecode s = some s := by
  unfold uriDecode
  rw [uriDecodeChars_unres s.data h]
  rfl

theorem splitAmpChars_free (p : List Char) (h : '&' ∉ p) : splitAmpChars p = [p] := by
  induction p with
  | nil => rfl
  | cons c t ih =>
    rw [splitAmpChars, if_neg (by intro he; subst he; exact h (List.mem_cons_self _ _))]
    rw [ih (fun hm => h (List.mem_cons_of_mem c hm))]

theorem splitAmpChars_append (p l : List Char) (h : '&' ∉ p) :
    splitAmpChars (p ++ '&' :: l) = p :: splitAmpChars l := by
  induction p with
  | nil =>
    show splitAmpChars ('&' :: l) = [] :: splitAmpChars l
    rw [splitAmpChars, if_pos rfl]
  | cons c t ih =>
    have hct : '&' ∉ t := fun hm => h (List.mem_cons_of_mem c hm)
    have hc : c ≠ '&' := by intro he; subst he; exact h (List.mem_cons_self _ _)
    show splitAmpChars (c :: (t ++ '&' :: l)) = _
    rw [splitAmpChars, if_neg hc, ih hct]

theorem splitAmpChars_join (ps : List (List Char)) (hne : ps ≠ [])
    (hfree : ∀ p ∈ ps, '&' ∉ p) :
    splitAmpChars (joinAmpChars ps) = ps := by
  induction ps with
  | nil => exact absurd rfl hne
  | cons p rest ih =>
    cases rest with
    | nil =>
      show splitAmpChars (joinAmpChars [p]) = [p]
      rw [joinAmpChars]
      exact splitAmpChars_free p (hfree p (by simp))
    | cons q rest' =>
      show splitAmpChars (joinAmpChars (p :: q :: rest')) = _
      rw [joinAmpChars]
      · rw [splitAmpChars_append _ _ (hfree p (by simp))]
        rw [ih (by simp) (fun r hr => hfree r (by simp [hr]))]
      · simp

theorem splitAmp_joinAmp (ss : List String) (hne : ss ≠ [])
    (hfree : ∀ s ∈ ss, ∀ c ∈ (s : String).data, uriUnreserved c = true) :
    splitAmp (joinAmp ss) = ss := by
  show (splitAmpChars (joinAmpChars (ss.map String.data))).map (fun l => (⟨l⟩ : String)) = ss
  rw [splitAmpChars_join _ (by simpa using hne)
    (by
      intro p hp
      rw [List.mem_map] at hp
      obtain ⟨s, hs, rfl⟩ := hp
      intro hamp
      exact unreserved_ne_amp '&' (hfree s hs '&' hamp) rfl)]
  rw [List.map_map]
  have hid : ((fun l => (⟨l⟩ : String)) ∘ String.data) = id := funext (fun s => rfl)
  rw [hid, List.map_id]

theorem joinAmpChars_cons (p : List Char) (ps : List (List Char)) :
    ∃ t, joinAmpChars (p :: ps) = p ++ t := by
  cases ps with
  | nil => exact ⟨[], by rw [joinAmpChars]; simp⟩
  | cons q r => exact ⟨'&' :: joinAmpChars (q :: r), by rw [joinAmpChars]; simp⟩

theorem joinAmp_ne_empty (s0 : String) (rest : List String) (h0 : s0 ≠ "") :
    joinAmp (s0 :: rest) ≠ "" := by
  obtain ⟨t, ht⟩ := joinAmpChars_cons s0.data (rest.map String.data)
  intro he
  apply h0
  apply String.ext
  have hd : (joinAmp (s0 :: rest)).data = s0.data ++ t := by
    show joinAmpChars (s0.data :: rest.map String.data) = s0.data ++ t
    exact ht
  rw [he] at hd
  have : s0.data = [] := by
    have h2 := hd.symm
    rw [List.append_eq_nil] at h2
    exact h2.1
  exact this

theorem mapWithCollect_of_forall₂ (g : α → Except String β) (xs : List α) (ys : List β)
    (h : List.Forall₂ (fun x y => g x = .ok y) xs ys) :
    mapWithCollect g xs = .ok ys := by
  induction h with
  | nil => rfl
  | cons hxy htail ih =>
    unfold mapWithCollect at ih ⊢
    simp only [List.map_cons]
    rw [hxy]
    simp [collectExc, ih, Except.map]

theorem hasType_nullable (g : FieldSpec) (v : JsValue) (h : hasType (.nullable g) v = true)
    (hnn : v ≠ .null) : hasType g v = true := by
  cases v with
  | null => exact absurd rfl hnn
  | undef => exact h
  | bool b => exact h
  | num q => exact h
  | nan => exact h
  | str s => exact h
  | arr xs => exact h

end Fields
end Broiling
namespace Broiling
namespace Fields

theorem listFree_fix_roundtrip (f : FieldSpec) :
    listFree f = true → scopeOK f = true → ∀ v : JsValue, hasType f v = true →
      validateF f v = .ok v →
      serializeF f v = .ok v ∧ deserializeF f v = .ok v ∧
        ∃ s : String, encodeF f v = .ok s ∧ (jsTruthy v = true → s ≠ "") ∧
          (∀ c ∈ s.data, uriUnreserved c = true) ∧ decodeF f s = .ok v := by
  induction f with
  | integer =>
    intro _ _ v _ hfix
    obtain ⟨hs, hd, s, he, hne, hu, hdec⟩ := integer_fix_roundtrip v hfix
    exact ⟨hs, hd, s, he, fun _ => hne, hu, hdec⟩
  | boolean =>
    intro _ _ v ht hfix
    cases v with
    | bool b =>
      obtain ⟨hs, hd, s, he, hne, hu, hdec⟩ := boolean_fix_roundtrip b
      exact ⟨hs, hd, s, he, fun _ => hne, hu, hdec⟩
    | undef => simp [hasType] at ht
    | null => simp [hasType] at ht
    | num q => simp [hasType] at ht
    | nan => simp [hasType] at ht
    | str s => simp [hasType] at ht
    | arr xs => simp [hasType] at ht
  | nullable g ihg =>
    intro hlf hsc v ht hfix
    have hlfg : listFree g = true := by simpa [listFree] using hlf
    have hscg : scopeOK g = true := by
      simp only [scopeOK, Bool.and_eq_true] at hsc
      exact hsc.1
    by_cases hnv : isNullable v = true
    · have hv : v = .null := by
        have h0 : nullableCollapse (validateF g) v = .ok v := hfix
        rw [nullableCollapse, if_pos hnv] at h0
        injection h0 with h1
        exact h1.symm
      subst hv
      refine ⟨?_, ?_, "", ?_, ?_, by simp, ?_⟩
      · show nullableCollapse (serializeF g) .null = _
        rw [nullableCollapse, if_pos (by simp [isNullable])]
      · show nullableDeserialize (deserializeF g) .null = _
        rw [nullableDeserialize, if_pos (by simp [isNullable])]
      · show nullableEncode (encodeF g) .null = _
        rw [nullableEncode, if_pos (by simp [isNullable])]
      · intro htr
        simp [jsTruthy] at htr
      · show nullableDecode (decodeF g) "" = _
        rw [nullableDecode, if_pos rfl]
    · have hnv' : isNullable v = false := by simpa using hnv
      have hvn : v ≠ .null := by
        intro he
        subst he
        simp [isNullable] at hnv'
      have hfix' : (validateF g v).map (fun r => if jsTruthy r then r else .null) = .ok v := by
        have h0 : nullableCollapse (validateF g) v = .ok v := hfix
        rwa [nullableCollapse, if_neg (by simp [hnv'])] at h0
      cases hg : validateF g v with
      | error e =>
        rw [hg] at hfix'
        exact absurd hfix' (by simp [Except.map])
      | ok r =>
        rw [hg] at hfix'
        simp only [Except.map] at hfix'
        have hfv : (if jsTruthy r then r else JsValue.null) = v := by
          injection hfix'
        by_cases hr : jsTruthy r = true
        · rw [if_pos hr] at hfv
          rw [hfv] at hg hr
          have hgt : hasType g v = true := hasType_nullable g v ht hvn
          obtain ⟨hs, hd, s, he, hne, hu, hdec⟩ := ihg hlfg hscg v hgt hg
          have hsne : s ≠ "" := hne hr
          refine ⟨?_, ?_, s, ?_, fun _ => hsne, hu, ?_⟩
          · show nullableCollapse (serializeF g) v = _
            rw [nullableCollapse, if_neg (by simp [hnv']), hs]
            simp [Except.map, hr]
          · show nullableDeserialize (deserializeF g) v = _
            rw [nullableDeserialize, if_neg (by simp [hnv'])]
            exact hd
          · show nullableEncode (encodeF g) v = _
            rw [nullableEncode, if_neg (by simp [hnv'])]
            exact he
          · show nullableDecode (decodeF g) s = _
            rw [nullableDecode, if_neg hsne, hdec]
            simp [Except.map, hr]
        · rw [if_neg hr] at hfv
          exact absurd hfv.symm hvn
  | list g ihg =>
    intro hlf
    simp [listFree] at hlf

theorem errs_agree : ∀ (f : FieldSpec) (v : JsValue),
    (validateF f v).isOk = (serializeF f v).isOk ∧
      (validateF f v).isOk = (encodeF f v).isOk := by
  intro f
  induction f with
  | integer =>
    intro v
    refine ⟨rfl, ?_⟩
    show _ = ((integerSerialize none none v).map _).isOk
    rw [isOk_map]
    rfl
  | boolean =>
    intro v
    exact ⟨rfl, rfl⟩
  | nullable g ihg =>
    intro v
    by_cases hnv : isNullable v = true
    · constructor
      · show (nullableCollapse (validateF g) v).isOk = (nullableCollapse (serializeF g) v).isOk
        rw [nullableCollapse, nullableCollapse, if_pos hnv, if_pos hnv]
      · show (nullableCollapse (validateF g) v).isOk = (nullableEncode (encodeF g) v).isOk
        rw [nullableCollapse, nullableEncode, if_pos hnv, if_pos hnv]
        rfl
    · constructor
      · show (nullableCollapse (validateF g) v).isOk = (nullableCollapse (serializeF g) v).isOk
        rw [nullableCollapse, nullableCollapse, if_neg hnv, if_neg hnv, isOk_map, isOk_map]
        exact (ihg v).1
      · show (nullableCollapse (validateF g) v).isOk = (nullableEncode (encodeF g) v).isOk
        rw [nullableCollapse, nullableEncode, if_neg hnv, if_neg hnv, isOk_map]
        exact (ihg v).2
  | list g ihg =>
    intro v
    cases v with
    | arr xs =>
      constructor
      · show ((mapWithCollect (validateF g) xs).map _).isOk =
          ((mapWithCollect (serializeF g) xs).map _).isOk
        rw [isOk_map, isOk_map]
        exact mapWithCollect_isOk_congr _ _ xs (fun x _ => (ihg x).1)
      · show ((mapWithCollect (validateF g) xs).map _).isOk =
          ((mapWithCollect (fun x => (encodeF g x).map uriEncode) xs).map _).isOk
        rw [isOk_map, isOk_map]
        exact mapWithCollect_isOk_congr _ _ xs (fun x _ => by rw [(ihg x).2, isOk_map])
    | undef => exact ⟨rfl, rfl⟩
    | null => exact ⟨rfl, rfl⟩
    | bool b => exact ⟨rfl, rfl⟩
    | num q => exact ⟨rfl, rfl⟩
    | nan => exact ⟨rfl, rfl⟩
    | str s => exact ⟨rfl, rfl⟩

end Fields
end Broiling
namespace Broiling
namespace Fields

theorem base_fix_roundtrip (g : FieldSpec) (hb : isBase g = true) (x : JsValue)
    (ht : hasType g x = true) (hfix : validateF g x = .ok x) :
    serializeF g x = .ok x ∧ deserializeF g x = .ok x ∧
      ∃ s : String, encodeF g x = .ok s ∧ s ≠ "" ∧
        (∀ c ∈ s.data, uriUnreserved c = true) ∧ decodeF g s = .ok x := by
  cases g with
  | integer => exact integer_fix_roundtrip x hfix
  | boolean =>
    cases x with
    | bool b => exact boolean_fix_roundtrip b
    | undef => simp [hasType] at ht
    | null => simp [hasType] at ht
    | num q => simp [hasType] at ht
    | nan => simp [hasType] at ht
    | str s => simp [hasType] at ht
    | arr xs => simp [hasType] at ht
  | nullable g' => simp [isBase] at hb
  | list g' => simp [isBase] at hb

theorem list_pieces (g : FieldSpec) (hb : isBase g = true) (xs : List JsValue)
    (ht : ∀ x ∈ xs, hasType g x = true) (hfix : ∀ x ∈ xs, validateF g x = .ok x) :
    ∃ ss : List String,
      mapWithCollect (fun x => (encodeF g x).map uriEncode) xs = .ok ss ∧
        (∀ s ∈ ss, ∀ c ∈ (s : String).data, uriUnreserved c = true) ∧
        List.Forall₂ (fun s x => s ≠ "" ∧ uriDecode s = some s ∧ decodeF g s = .ok x)
          ss xs := by
  induction xs with
  | nil => exact ⟨[], rfl, by simp, .nil⟩
  | cons a t ih =>
    obtain ⟨ss, hss, hall, hf⟩ :=
      ih (fun x hx => ht x (by simp [hx])) (fun x hx => hfix x (by simp [hx]))
    obtain ⟨_, _, s, he, hne, hu, hdec⟩ :=
      base_fix_roundtrip g hb a (ht a (by simp)) (hfix a (by simp))
    refine ⟨s :: ss, ?_, ?_, .cons ⟨hne, uriDecode_unres s hu, hdec⟩ hf⟩
    · unfold mapWithCollect at hss ⊢
      simp only [List.map_cons]
      rw [he]
      have h1 : Except.map uriEncode (Except.ok s : Except String String) = Except.ok (uriEncode s) := rfl
      rw [h1, uriEncode_unres s hu]
      rw [collectExc, hss]
      rfl
    · intro s' hs' c hc
      rcases List.mem_cons.mp hs' with h | h
      · rw [h] at hc
        exact hu c hc
      · exact hall s' h c hc

theorem list_fix_roundtrip (g : FieldSpec) (hb : isBase g = true) (xs : List JsValue)
    (ht : ∀ x ∈ xs, hasType g x = true)
    (hfixall : ∀ x ∈ xs, validateF g x = .ok x) :
    serializeF (.list g) (.arr xs) = .ok (.arr xs) ∧
      deserializeF (.list g) (.arr xs) = .ok (.arr xs) ∧
      ∃ s : String, encodeF (.list g) (.arr xs) = .ok s ∧
        decodeF (.list g) s = .ok (.arr xs) := by
  have hser : ∀ x ∈ xs, serializeF g x = .ok x :=
    fun x hx => (base_fix_roundtrip g hb x (ht x hx) (hfixall x hx)).1
  have hdes : ∀ x ∈ xs, deserializeF g x = .ok x :=
    fun x hx => (base_fix_roundtrip g hb x (ht x hx) (hfixall x hx)).2.1
  refine ⟨?_, ?_, ?_⟩
  · show (mapWithCollect (serializeF g) xs).map (fun ys => JsValue.arr ys) = _
    rw [mapWithCollect_diag _ _ hser]
    rfl
  · show (mapWithCollect (deserializeF g) xs).map (fun ys => JsValue.arr ys) = _
    rw [mapWithCollect_diag _ _ hdes]
    rfl
  · obtain ⟨ss, hss, hall, hf⟩ := list_pieces g hb xs ht hfixall
    refine ⟨joinAmp ss, ?_, ?_⟩
    · show (mapWithCollect (fun x => (encodeF g x).map uriEncode) xs).map joinAmp = _
      rw [hss]
      rfl
    · cases hf with
    | nil =>
      show listDecode (decodeF g) (joinAmp []) = _
      rfl
    | cons hp hf' =>
      rename_i s0 x0 ss' t
      show listDecode (decodeF g) (joinAmp (s0 :: ss')) = _
      have hjne : joinAmp (s0 :: ss') ≠ "" := joinAmp_ne_empty s0 ss' hp.1
      unfold listDecode
      rw [if_neg hjne]
      rw [splitAmp_joinAmp (s0 :: ss') (by simp) hall]
      have hf2 : List.Forall₂
          (fun s x => s ≠ "" ∧ uriDecode s = some s ∧ decodeF g s = .ok x)
          (s0 :: ss') (x0 :: t) := List.Forall₂.cons hp hf'
      have hdecs : mapWithCollect
          (fun piece => match uriDecode piece with
            | some t' => decodeF g t'
            | none => .error "URIError") (s0 :: ss') = .ok (x0 :: t) := by
        apply mapWithCollect_of_forall₂
        refine List.Forall₂.imp ?_ hf2
        intro s x h
        dsimp only
        rw [h.2.1]
        exact h.2.2
      rw [hdecs]
      rfl

end Fields
end Broiling
namespace Broiling
namespace Fields

/-- C6 (corrected): on the scope where the encodings are injective (base
fields, nullable wrappers of list-free fields, lists of base fields), a value
the field's `validate` returns unchanged round-trips through `encode`/`decode`
and `serialize`/`deserialize`, and `serialize`/`encode` raise a
`ValidationError` exactly when `validate` does. -/
theorem fieldCodec_roundtrip_spec (f : FieldSpec) (v : JsValue)
    (hscope : scopeOK f = true) (htype : hasType f v = true) :
    ((validateF f v).isOk = (serializeF f v).isOk ∧
      (validateF f v).isOk = (encodeF f v).isOk) ∧
    (validateF f v = .ok v →
      (∃ s, encodeF f v = .ok s ∧ decodeF f s = .ok v) ∧
      ∃ w, serializeF f v = .ok w ∧ deserializeF f w = .ok v) := by
  refine ⟨errs_agree f v, fun hfix => ?_⟩
  cases hlf : listFree f with
  | true =>
    obtain ⟨hs, hd, s, he, _, _, hdec⟩ := listFree_fix_roundtrip f hlf hscope v htype hfix
    exact ⟨⟨s, he, hdec⟩, v, hs, hd⟩
  | false =>
    cases f with
    | integer => simp [listFree] at hlf
    | boolean => simp [listFree] at hlf
    | nullable g =>
      exfalso
      simp only [scopeOK, Bool.and_eq_true] at hscope
      simp only [listFree] at hlf
      rw [hlf] at hscope
      exact absurd hscope.2 (by simp)
    | list g =>
      have hb : isBase g = true := by simpa [scopeOK] using hscope
      cases v with
      | arr xs =>
        have htx : ∀ x ∈ xs, hasType g x = true := by
          intro x hx
          have h2 : xs.all (fun x => hasType g x) = true := htype
          rw [List.all_eq_true] at h2
          exact h2 x hx
        have hfx : ∀ x ∈ xs, validateF g x = .ok x := by
          have h0 : (mapWithCollect (validateF g) xs).map (fun ys => JsValue.arr ys) =
              .ok (.arr xs) := hfix
          cases hmc : mapWithCollect (validateF g) xs with
          | error e =>
            rw [hmc] at h0
            exact absurd h0 (by simp [Except.map])
          | ok ys =>
            rw [hmc] at h0
            simp only [Except.map] at h0
            have hyx : ys = xs := by
              injection h0 with h1
              injection h1
            subst hyx
            exact mapWithCollect_fix _ _ hmc
        obtain ⟨hs, hd, s, he, hdec⟩ := list_fix_roundtrip g hb xs htx hfx
        exact ⟨⟨s, he, hdec⟩, .arr xs, hs, hd⟩
      | undef => simp [hasType] at htype
      | null => simp [hasType] at htype
      | bool b => simp [hasType] at htype
      | num q => simp [hasType] at htype
      | nan => simp [hasType] at htype
      | str s => simp [hasType] at htype

/-- Witness: the corrected round-trip law applied to `nullable(integer())` at
the fixed-point value `5`. -/
theorem fieldCodec_roundtrip_spec_witness :
    scopeOK (.nullable .integer) = true ∧
      hasType (.nullable .integer) (.num 5) = true ∧
      (((validateF (.nullable .integer) (.num 5)).isOk =
          (serializeF (.nullable .integer) (.num 5)).isOk ∧
        (validateF (.nullable .integer) (.num 5)).isOk =
          (encodeF (.nullable .integer) (.num 5)).isOk) ∧
      (validateF (.nullable .integer) (.num 5) = .ok (.num 5) →
        (∃ s, encodeF (.nullable .integer) (.num 5) = .ok s ∧
          decodeF (.nullable .integer) s = .ok (.num 5)) ∧
        ∃ w, serializeF (.nullable .integer) (.num 5) = .ok w ∧
          deserializeF (.nullable .integer) w = .ok (.num 5))) :=
  ⟨rfl, rfl, fieldCodec_roundtrip_spec (.nullable .integer) (.num 5) rfl rfl⟩

end Fields
end Broiling
namespace Broiling
namespace Fields

/-- C10 (corrected): the `NullableField` combinator
`(!isNullable(value) && wrapped(value)) || null` collapses every falsy wrapped
result to `null` in `validate`, `serialize` and `decode`:
`nullable(integer()).validate(0)`, `nullable(boolean()).serialize(false)` and
`nullable(number()).decode('0')` all return `null`, and in general any
non-nullish input whose wrapped result is falsy collapses there.  But not every
operation that applies the wrapped field collapses: `deserialize` passes the
wrapped result through uncollapsed, and `encode` maps nullish inputs to the
empty string `''`, never to `null`. -/
theorem nullable_falsy_collapse :
    nullableCollapse (integerValidate none none) (.num 0) = .ok .null ∧
      nullableCollapse booleanSerialize (.bool false) = .ok .null ∧
      nullableDecode (numberDecode none none) "0" = .ok .null ∧
      (∀ (g : JsValue → Except String JsValue) (v r : JsValue),
        isNullable v = false → g v = .ok r → jsTruthy r = false →
          nullableCollapse g v = .ok .null) ∧
      (∀ (g : String → Except String JsValue) (s : String) (r : JsValue),
        s ≠ "" → g s = .ok r → jsTruthy r = false →
          nullableDecode g s = .ok .null) ∧
      (∀ (g : JsValue → Except String JsValue) (v : JsValue),
        isNullable v = false → nullableDeserialize g v = g v) ∧
      (∀ (g : JsValue → Except String String) (v : JsValue),
        isNullable v = true → nullableEncode g v = .ok "") := by
  have hq : parseFloatJs "0" = .num 0 := by
    show parseFloatJs ⟨['0']⟩ = _
    simp [parseFloatJs, parseFloatChars, digitsVal]
  refine ⟨rfl, rfl, ?_, ?_, ?_, ?_, ?_⟩
  · unfold nullableDecode numberDecode
    rw [if_neg (by simp), hq]
    rfl
  · intro g v r hnv hg hr
    unfold nullableCollapse
    rw [if_neg (by simp [hnv]), hg]
    simp [Except.map, hr]
  · intro g s r hs hg hr
    unfold nullableDecode
    rw [if_neg hs, hg]
    simp [Except.map, hr]
  · intro g v hnv
    unfold nullableDeserialize
    rw [if_neg (by simp [hnv])]
  · intro g v hnv
    unfold nullableEncode
    rw [if_pos hnv]

/-- Witness: the general collapse law of C10 applied at `nullable(integer())`
with the falsy valid value `0`. -/
theorem nullable_falsy_collapse_witness :
    isNullable (JsValue.num 0) = false ∧
      integerValidate none none (.num 0) = .ok (.num 0) ∧
      jsTruthy (JsValue.num 0) = false ∧
      nullableCollapse (integerValidate none none) (.num 0) = .ok .null :=
  ⟨rfl, rfl, rfl, nullable_falsy_collapse.2.2.2.1 _ _ _ rfl rfl rfl⟩

/-- C10 counterexample: not every operation that applies the wrapped field
collapses a falsy wrapped result to `null`.  `NullableField.deserialize` is
`value === null || value === '' ? null : this.field.deserialize(value)` — no
truthiness collapse — so `nullable(integer()).deserialize(0)` and
`nullable(boolean()).deserialize(false)` return the falsy values `0` and
`false` themselves, not `null`. -/
theorem nullableDeserialize_no_collapse :
    jsTruthy (JsValue.num 0) = false ∧
      isNullable (JsValue.num 0) = false ∧
      nullableDeserialize (integerDeserialize none none) (.num 0) = .ok (.num 0) ∧
      nullableDeserialize (integerDeserialize none none) (.num 0) ≠ .ok .null ∧
      jsTruthy (JsValue.bool false) = false ∧
      nullableDeserialize booleanDeserialize (.bool false) = .ok (.bool false) := by
  have h3 : nullableDeserialize (integerDeserialize none none) (.num 0) = .ok (.num 0) := by
    show integerValidate none none (.num 0) = _
    unfold integerValidate numberValidate truncQ
    norm_num [maxInteger, minInteger, Except.map]
  refine ⟨rfl, rfl, h3, ?_, rfl, rfl⟩
  rw [h3]
  simp

/-- C6 counterexample: `nullable(integer())` accepts `0` (`validate` succeeds)
but `decode(encode(0))` and `deserialize(serialize(0))` both yield `null`,
not `0` — the literal round-trip claim fails on falsy valid values. -/
theorem nullableField_breaks_roundtrip :
    (validateF (.nullable .integer) (.num 0)).isOk = true ∧
      encodeF (.nullable .integer) (.num 0) = .ok "0" ∧
      decodeF (.nullable .integer) "0" = .ok .null ∧
      serializeF (.nullable .integer) (.num 0) = .ok .null ∧
      deserializeF (.nullable .integer) .null = .ok .null ∧
      JsValue.null ≠ JsValue.num 0 := by
  have hdig : natDigits 0 = ['0'] := by rw [natDigits]; rfl
  have hval : integerValidate none none (.num 0) = .ok (.num 0) := by
    unfold integerValidate numberValidate truncQ
    norm_num [maxInteger, minInteger, Except.map]
  have hp : parseIntJs "0" = .num 0 := by
    show parseIntJs ⟨['0']⟩ = _
    have h : parseIntChars ['0'] = some 0 := rfl
    unfold parseIntJs
    rw [h]
    norm_num
  have hdec : integerDecode none none "0" = .ok (.num 0) := by
    show integerValidate none none (parseIntJs "0") = _
    rw [hp, hval]
  refine ⟨rfl, ?_, ?_, rfl, rfl, fun h => nomatch h⟩
  · show nullableEncode (integerEncode none none) (.num 0) = .ok "0"
    unfold nullableEncode integerEncode integerSerialize
    rw [if_neg (by simp [isNullable]), hval]
    show Except.ok (intToString (truncQ 0)) = _
    unfold intToString truncQ
    norm_num [hdig]
  · show nullableDecode (integerDecode none none) "0" = .ok .null
    unfold nullableDecode
    rw [if_neg (by simp), hdec]
    simp [Except.map, jsTruthy]

end Fields
end Broiling
